import Mathlib

/-!
Shallow embedding of the document-store abstraction layer of the Yearbook
repository (`src/backend/src/db/baseModel.js`, with the model registry from
`src/unnamed/part_016`), together with proofs settling the frozen claims
about it.

Modelling conventions:
* JavaScript runtime values are modelled by `Value`: `undefined`, `null`,
  `NaN`, booleans, integer numbers (`Int`; the repository only stores and
  filters integral numbers — fractional literals never occur in the data
  this layer manipulates), strings, arrays and plain objects.  Objects are
  insertion-ordered association lists, mirroring JS own-property order for
  the string keys this code uses.
* Timestamps: in the source every timestamp is `new Date().toISOString()`.
  ISO-8601 strings of increasing instants are strictly increasing in
  lexicographic string order, so the time line is modelled by a `Nat` clock
  in the database state and a timestamp is stored as `Value.num clock`;
  the clock advances on each engine operation.
* `crypto.randomUUID()` is modelled by an injective supply of fresh id
  strings driven by a counter in the database state.
* A thrown JS exception is modelled by `Option`/`none` where the source can
  throw inside evaluation (`$in` with a non-array argument throws a
  `TypeError` in `expected.$in.map`, `new RegExp` can throw on an invalid
  pattern).  Regular-expression matching itself is not interpreted: the
  development is parametrised by an arbitrary `regexTest` function standing
  for `new RegExp(p, o).test(s)` (`none` = the constructor threw), and the
  theorems hold for every such function.
-/

namespace Yearbook

/-- JS runtime values as used by the store layer. -/
inductive Value where
  | undef : Value
  | null : Value
  | nan : Value
  | bool : Bool → Value
  | num : Int → Value
  | str : String → Value
  | arr : List Value → Value
  | obj : List (String × Value) → Value

/-- A document / JS object: an insertion-ordered association list. -/
abbrev Doc := List (String × Value)

namespace Value

/-- Truthiness of a JS value (`if (v)`). -/
def truthy : Value → Bool
  | undef => false
  | null => false
  | nan => false
  | bool b => b
  | num n => n != 0
  | str s => s ≠ ""
  | arr _ => true
  | obj _ => true

/-- `v == null` (loose equality against null: true exactly on null/undefined). -/
def isNullish : Value → Bool
  | undef => true
  | null => true
  | _ => false

end Value

mutual

/-- JS `String(v)`.  Array elements stringify recursively, with nullish
elements becoming empty (JS `Array.prototype.toString`); objects become
`"[object Object]"`. -/
def Value.toJsString : Value → String
  | .undef => "undefined"
  | .null => "null"
  | .nan => "NaN"
  | .bool b => if b then "true" else "false"
  | .num n => toString n
  | .str s => s
  | .arr l => String.intercalate "," (Value.toJsStringElems l)
  | .obj _ => "[object Object]"

/-- Stringification of array elements for `Value.toJsString`. -/
def Value.toJsStringElems : List Value → List String
  | [] => []
  | v :: rest =>
    (if v.isNullish then "" else v.toJsString) :: Value.toJsStringElems rest

end

/-- JS whitespace (the characters this code can meet in practice). -/
def isJsWs (c : Char) : Bool :=
  c = ' ' || c = '\t' || c = '\n' || c = '\r'

/-- Strip surrounding whitespace from a character list. -/
def trimChars (l : List Char) : List Char :=
  ((l.dropWhile isJsWs).reverse.dropWhile isJsWs).reverse

/-- Parse a nonempty all-digit character list as a decimal `Nat`. -/
def digitsToNat : List Char → Nat → Option Nat
  | [], acc => some acc
  | c :: cs, acc =>
    if 48 ≤ c.toNat ∧ c.toNat ≤ 57 then digitsToNat cs (acc * 10 + (c.toNat - 48))
    else none

/-- Decimal parse of a string. -/
def decimalNat : List Char → Option Nat
  | [] => none
  | l => digitsToNat l 0

/-- Numeric parse of a string as JS `Number(string)` does: surrounding
whitespace ignored, empty means `0`, otherwise a (possibly negated) decimal
integer; anything else is NaN (`none`).  (Fractional and exotic numeric
syntax lies outside the integer value universe modelled here.) -/
def parseJsNumber (s : String) : Option Int :=
  match trimChars s.data with
  | [] => some 0
  | '-' :: rest => (decimalNat rest).map (fun n => -(n : Int))
  | t => (decimalNat t).map (fun n => (n : Int))

namespace Value

/-- JS `Number(v)`; `none` models NaN. -/
def toJsNumber : Value → Option Int
  | undef => none
  | null => some 0
  | nan => none
  | bool b => some (if b then 1 else 0)
  | num n => some n
  | v => parseJsNumber v.toJsString

/-- JS strict equality `===` restricted to this value universe.  `NaN` is
not equal to itself; arrays and objects compare by reference, and two
distinct documents' field values are distinct references, so reference
equality is modelled as never-equal for arrays/objects. -/
def strictEq : Value → Value → Bool
  | undef, undef => true
  | null, null => true
  | bool a, bool b => a == b
  | num a, num b => a == b
  | str a, str b => a == b
  | _, _ => false

end Value

/-- Lexicographic code-unit comparison of strings (JS `<` on strings). -/
def jsStrLt : List Char → List Char → Bool
  | [], [] => false
  | [], _ :: _ => true
  | _ :: _, [] => false
  | a :: as, b :: bs =>
    if a.toNat < b.toNat then true
    else if b.toNat < a.toNat then false
    else jsStrLt as bs

namespace Value

/-- JS `a < b`: string/string compares lexicographically, otherwise both
sides coerce to number and NaN comparisons are false. -/
def jsLt : Value → Value → Bool
  | str a, str b => jsStrLt a.data b.data
  | a, b =>
    match a.toJsNumber, b.toJsNumber with
    | some x, some y => x < y
    | _, _ => false

/-- JS `a > b`. -/
def jsGt : Value → Value → Bool
  | str a, str b => jsStrLt b.data a.data
  | a, b =>
    match a.toJsNumber, b.toJsNumber with
    | some x, some y => y < x
    | _, _ => false

end Value

/-! ### JS object primitives

Plain objects are insertion-ordered association lists with unique keys (the
uniqueness is what JS guarantees; the operations below preserve it and the
read operations use the first occurrence). -/

/-- `obj[k]`: the value at key `k`, `undefined` when absent. -/
def objGet (d : Doc) (k : String) : Value :=
  match d.find? (fun e => e.1 == k) with
  | none => .undef
  | some e => e.2

/-- `k in obj`: own-property test. -/
def objHasKey (d : Doc) (k : String) : Bool :=
  d.any (fun e => e.1 == k)

/-- `obj[k] = v`: update in place when the key exists (every occurrence, so
the equation `objGet (objSet d k v) k = v` holds without a well-formedness
hypothesis), append otherwise — JS property-assignment order. -/
def objSet (d : Doc) (k : String) (v : Value) : Doc :=
  if objHasKey d k then d.map (fun e => if e.1 == k then (e.1, v) else e)
  else d ++ [(k, v)]

/-- `\x7b...a, ...b\x7d`: spread-merge, later object winning, JS key order. -/
def spread (a b : Doc) : Doc :=
  b.foldl (fun acc e => objSet acc e.1 e.2) a

/-- `Object.keys`. -/
def objKeys (d : Doc) : List String :=
  d.map Prod.fst

/-! ### Dotted-path resolution (`toPath`, `getValue`, `setValue`) -/

/-- `toPath` (baseModel.js line 12): strip one leading `$`. -/
def toPath (path : String) : String :=
  match path.data with
  | '$' :: rest => String.mk rest
  | _ => path

/-- Split a character list on a separator character (JS
`String.prototype.split` with a single-character separator: an empty
string yields one empty piece, adjacent separators yield empty pieces). -/
def splitOnChar (c : Char) : List Char → List (List Char)
  | [] => [[]]
  | x :: xs =>
    match splitOnChar c xs with
    | [] => [[]]
    | g :: gs => if x = c then [] :: g :: gs else (x :: g) :: gs

/-- `path.split('.')`. -/
def splitPath (s : String) : List String :=
  (splitOnChar '.' s.data).map String.mk

/-- A canonical array-index key ("0", "7", ... — no leading zeros). -/
def canonicalIndex (k : String) : Option Nat :=
  match decimalNat k.data with
  | some i => if toString i = k then some i else none
  | none => none

namespace Value

/-- Computed member access `current[segment]` on an arbitrary value:
objects by key, arrays by canonical index or `length`, strings by index or
`length`; member access on any other value yields `undefined` (prototype
methods are function values, outside this data universe). -/
def member : Value → String → Value
  | .obj fields, k => objGet fields k
  | .arr l, k =>
    if k = "length" then .num l.length
    else
      match canonicalIndex k with
      | some i => l.getD i .undef
      | none => .undef
  | .str s, k =>
    if k = "length" then .num s.length
    else
      match canonicalIndex k with
      | some i =>
        if i < s.length then .str (String.mk [s.data.getD i ' '])
        else .undef
      | none => .undef
  | _, _ => (.undef)

/-- The loop body of `getValue` (baseModel.js line 16): walk the segments,
returning `undefined` as soon as the current value is nullish. -/
def walkPath : Value → List String → Value
  | cur, [] => cur
  | cur, seg :: rest =>
    if cur.isNullish then .undef else (cur.member seg).walkPath rest

end Value

/-- `getValue(obj, path)` (baseModel.js line 16). -/
def getValue (d : Doc) (path : String) : Value :=
  Value.walkPath (.obj d) (splitPath (toPath path))

namespace Value

/-- `typeof v === 'object' && v !== null` as used by `setValue`'s walk. -/
def isObjectLike : Value → Bool
  | .obj _ => true
  | .arr _ => true
  | _ => false

/-- Property assignment for `setValue`'s final write: objects update/append;
arrays accept a canonical in-range (or appending) index; assignments on
other values are silent no-ops (sloppy-mode JS). -/
def setMember : Value → String → Value → Value
  | .obj fields, k, v => .obj (objSet fields k v)
  | .arr l, k, v =>
    if k = "length" then .arr l
    else
      match canonicalIndex k with
      | some i =>
        if i < l.length then .arr (l.set i v)
        else if i = l.length then .arr (l ++ [v]) else .arr l
      | none => .arr l
  | cur, _, _ => cur

/-- The walk of `setValue` (baseModel.js line 26): descend through every
segment but the last, replacing a nullish or non-object child with a fresh
`\x7b\x7d`, then assign at the last segment. -/
def setPath : Value → List String → Value → Value
  | cur, [], _ => cur
  | cur, [k], v => cur.setMember k v
  | cur, k :: rest, v =>
    let child := cur.member k
    let child' := if child.isNullish || !child.isObjectLike then .obj [] else child
    cur.setMember k (child'.setPath rest v)

/-- Object fields of a value, with a fallback for non-objects. -/
def fieldsOr : Value → Doc → Doc
  | .obj f, _ => f
  | _, d => d

end Value

/-- `setValue(obj, path, value)` (baseModel.js line 26); note it does not
strip a `$` prefix. -/
def setValue (d : Doc) (path : String) (v : Value) : Doc :=
  ((Value.obj d).setPath (splitPath path) v).fieldsOr d

/-! ### Document codec (`normalizeData`, baseModel.js line 39)

The source converts `Date` instances to ISO strings and rebuilds arrays and
objects recursively.  Timestamps are modelled through the state clock (see
the header), so the value universe has no separate temporal constructor and
the codec is the identity traversal — proved below, not assumed. -/

mutual

/-- `normalizeData` (baseModel.js line 39). -/
def normalizeData : Value → Value
  | .arr l => .arr (normalizeDataList l)
  | .obj f => .obj (normalizeDataFields f)
  | v => v

/-- Element-wise normalization of an array. -/
def normalizeDataList : List Value → List Value
  | [] => []
  | v :: rest => normalizeData v :: normalizeDataList rest

/-- Field-wise normalization of an object. -/
def normalizeDataFields : List (String × Value) → List (String × Value)
  | [] => []
  | e :: rest => (e.1, normalizeData e.2) :: normalizeDataFields rest

end

/-- Member-wise induction over the nested `Value` type. -/
theorem Value.inductionOn {motive : Value → Prop}
    (hundef : motive .undef) (hnull : motive .null) (hnan : motive .nan)
    (hbool : ∀ b, motive (.bool b)) (hnum : ∀ n, motive (.num n))
    (hstr : ∀ s, motive (.str s))
    (harr : ∀ l, (∀ v, v ∈ l → motive v) → motive (.arr l))
    (hobj : ∀ f, (∀ k v, (k, v) ∈ f → motive v) → motive (.obj f)) :
    ∀ v, motive v
  | .undef => hundef
  | .null => hnull
  | .nan => hnan
  | .bool b => hbool b
  | .num n => hnum n
  | .str s => hstr s
  | .arr l => harr l (fun v hv =>
      Value.inductionOn hundef hnull hnan hbool hnum hstr harr hobj v)
  | .obj f => hobj f (fun k v hv =>
      Value.inductionOn hundef hnull hnan hbool hnum hstr harr hobj v)
termination_by v => sizeOf v
decreasing_by
  · have h1 := List.sizeOf_lt_of_mem hv
    simp only [Value.arr.sizeOf_spec]
    omega
  · have h1 := List.sizeOf_lt_of_mem hv
    have h2 : sizeOf v < sizeOf (k, v) := by simp
    simp only [Value.obj.sizeOf_spec]
    omega

/-- The array part of the codec is the element-wise map. -/
theorem normalizeDataList_eq_map (l : List Value) :
    normalizeDataList l = l.map normalizeData := by
  induction l with
  | nil => rfl
  | cons v rest ih => simp [normalizeDataList, ih]

/-- The object part of the codec is the field-wise map. -/
theorem normalizeDataFields_eq_map (f : List (String × Value)) :
    normalizeDataFields f = f.map (fun e => (e.1, normalizeData e.2)) := by
  induction f with
  | nil => rfl
  | cons e rest ih => simp [normalizeDataFields, ih]

/-- On the modelled value universe the codec is the identity. -/
theorem normalizeData_id : ∀ v, normalizeData v = v := by
  intro v
  induction v using Value.inductionOn with
  | harr l ih =>
    simp only [normalizeData, normalizeDataList_eq_map, Value.arr.injEq]
    exact List.map_congr_left ih |>.trans (List.map_id l)
  | hobj f ih =>
    simp only [normalizeData, normalizeDataFields_eq_map, Value.obj.injEq]
    conv_rhs => rw [← List.map_id f]
    refine List.map_congr_left fun e he => ?_
    have := ih e.1 e.2 he
    simp [this]
  | _ => rfl

/-- Field-wise, the codec leaves a document unchanged. -/
theorem normalizeDataFields_id (d : Doc) : normalizeDataFields d = d := by
  rw [normalizeDataFields_eq_map]
  conv_rhs => rw [← List.map_id d]
  exact List.map_congr_left fun e _ => by simp [normalizeData_id]

/-! ### Filter evaluator (`matchesFilter`, baseModel.js line 52)

A thrown exception is `none`.  The development is parametrised by
`regexTest p o s`, the semantics of `new RegExp(p, o).test(s)` (`none` =
the `RegExp` constructor threw); every theorem holds for every such
function. -/

/-- `Object.entries(v)`: fields of an object, indexed entries of an array
or a string, nothing for remaining primitives. -/
def valueEntries : Value → Doc
  | .obj f => f
  | .arr l => (l.enum).map fun p => (toString p.1, p.2)
  | .str s => (s.data.enum).map fun p => (toString p.1, .str (String.mk [p.2]))
  | _ => []

/-- `Number(a) > Number(b)` (the `$gt` test; NaN comparisons are false). -/
def jsNumGt (a b : Value) : Bool :=
  match a.toJsNumber, b.toJsNumber with
  | some x, some y => y < x
  | _, _ => false

variable (regexTest : Value → Value → String → Option Bool)

/-- One `[key, expected]` conjunct of `matchesFilter`: operator objects are
dispatched on `$in`, `$regex`, `$gt` in source order (an object carrying
none of them yields `false`); any other expected value is compared by
`String(actual) === String(expected)`.  `$in` with a non-array argument
throws (`expected.$in.map` is a TypeError). -/
def evalFilterEntry (doc : Doc) (e : String × Value) : Option Bool :=
  let actual := getValue doc e.1
  match e.2 with
  | .obj fields =>
    if objHasKey fields "$in" then
      match objGet fields "$in" with
      | .arr l => some ((l.map Value.toJsString).contains actual.toJsString)
      | _ => none
    else if objHasKey fields "$regex" then
      let opts := objGet fields "$options"
      regexTest (objGet fields "$regex")
        (if opts.isNullish then .str "" else opts)
        (if actual.isNullish then "" else actual.toJsString)
    else if objHasKey fields "$gt" then
      some (jsNumGt actual (objGet fields "$gt"))
    else some false
  | expected => some (actual.toJsString == expected.toJsString)

/-- `matchesFilter(doc, filter)` (baseModel.js line 52): conjunction over
the filter's entries via `Array.prototype.every`, which stops at the first
`false`. -/
def matchesFilter (doc : Doc) : Doc → Option Bool
  | [] => some true
  | e :: rest =>
    match evalFilterEntry regexTest doc e with
    | none => none
    | some false => some false
    | some true => matchesFilter doc rest

/-- `rows.filter((entry) => matchesFilter(entry, filter))`, propagating a
thrown evaluation. -/
def filterMatches (filter : Doc) : List Doc → Option (List Doc)
  | [] => some []
  | d :: rest =>
    match matchesFilter regexTest d filter with
    | none => none
    | some b =>
      (filterMatches filter rest).map fun l => if b then d :: l else l

/-! ### Projection (`applyProjection`, baseModel.js line 74) -/

/-- `applyProjection(doc, projection)`: without a projection, a shallow
copy; with one, a fresh object seeded with `_id` plus the document's value
at every projection key whose projection value is truthy. -/
def applyProjection (doc : Doc) (projection : Option Doc) : Doc :=
  match projection with
  | none => doc
  | some p =>
    p.foldl
      (fun out e =>
        if (objGet p e.1).truthy then objSet out e.1 (objGet doc e.1) else out)
      [("_id", objGet doc "_id")]

/-! ### Sort (`compareWithSort`, baseModel.js line 84) -/

/-- `compareWithSort(a, b, sort)`: walk the sort keys in order; strictly
equal resolved values fall through to the next key, a nullish left value
sorts after anything, a nullish right value before, and otherwise the JS
`<`/`>` tests decide, flipped for a negative direction; incomparable values
(NaN) also fall through. -/
def compareWithSort (a b : Doc) : Doc → Int
  | [] => 0
  | (key, direction) :: rest =>
    let av := getValue a key
    let bv := getValue b key
    if av.strictEq bv then compareWithSort a b rest
    else if av.isNullish then 1
    else if bv.isNullish then -1
    else if av.jsLt bv then (if direction.jsLt (.num 0) then 1 else -1)
    else if av.jsGt bv then (if direction.jsLt (.num 0) then -1 else 1)
    else compareWithSort a b rest

/-- Stable insertion of `x` into `acc`: `x` lands before the first element
it compares strictly below, hence after every earlier element it ties
with. -/
def insertCmp (cmp : Doc → Doc → Int) (x : Doc) : List Doc → List Doc
  | [] => [x]
  | y :: ys => if cmp x y < 0 then x :: y :: ys else y :: insertCmp cmp x ys

/-- `array.sort(cmp)`: ECMAScript sorting is stable and, for a consistent
comparator, yields the unique stable sorted permutation, modelled here by
stable insertion sort. -/
def sortByCmp (cmp : Doc → Doc → Int) (l : List Doc) : List Doc :=
  l.foldl (fun acc x => insertCmp cmp x acc) []

/-- `[...result].sort((a, b) => compareWithSort(a, b, sort))`. -/
def sortDocs (sort : Doc) (l : List Doc) : List Doc :=
  sortByCmp (fun a b => compareWithSort a b sort) l

/-! ### Aggregation (`evaluateGroupIdExpression` and `aggregateRows`,
baseModel.js lines 195 and 207) -/

mutual

/-- `evaluateGroupIdExpression(doc, expr)`: a string is a field path, an
object (or array) is evaluated entry-wise into a composite key, anything
else is a constant. -/
def evaluateGroupIdExpression (doc : Doc) : Value → Value
  | .str path => getValue doc path
  | .obj fields => .obj (groupIdFields doc fields)
  | .arr l => .obj (groupIdElems doc 0 l)
  | expr => expr

/-- Entry-wise evaluation of an object id expression. -/
def groupIdFields (doc : Doc) : List (String × Value) → List (String × Value)
  | [] => []
  | e :: rest => (e.1, evaluateGroupIdExpression doc e.2) :: groupIdFields doc rest

/-- Entry-wise evaluation of an array id expression (indexed keys, as
`Object.entries` produces for arrays). -/
def groupIdElems (doc : Doc) (i : Nat) : List Value → List (String × Value)
  | [] => []
  | v :: rest => (toString i, evaluateGroupIdExpression doc v) :: groupIdElems doc (i + 1) rest

end

/-- Backslash and quote escapes for JSON string literals. -/
def jsonEscape : List Char → List Char
  | [] => []
  | c :: cs =>
    if c = '\\' || c = '"' then '\\' :: c :: jsonEscape cs
    else c :: jsonEscape cs

/-- Minimal JSON string quoting. -/
def jsonQuote (s : String) : String :=
  "\"" ++ String.mk (jsonEscape s.data) ++ "\""

mutual

/-- `JSON.stringify(v)`: `none` for `undefined` (so a `Map` keyed by the
serialized id groups all unserializable ids together), `"null"` for `null`
and `NaN`, recursive arrays (unserializable elements become `null`) and
objects (unserializable fields are dropped). -/
def jsonStringify : Value → Option String
  | .undef => none
  | .null => some "null"
  | .nan => some "null"
  | .bool b => some (if b then "true" else "false")
  | .num n => some (toString n)
  | .str s => some (jsonQuote s)
  | .arr l => some ("[" ++ String.intercalate "," (jsonStringifyElems l) ++ "]")
  | .obj f => some ("\x7b" ++ String.intercalate "," (jsonStringifyFields f) ++ "\x7d")

/-- Array elements for `jsonStringify`. -/
def jsonStringifyElems : List Value → List String
  | [] => []
  | v :: rest => ((jsonStringify v).getD "null") :: jsonStringifyElems rest

/-- Object fields for `jsonStringify`. -/
def jsonStringifyFields : List (String × Value) → List String
  | [] => []
  | e :: rest =>
    match jsonStringify e.2 with
    | some s => (jsonQuote e.1 ++ ":" ++ s) :: jsonStringifyFields rest
    | none => jsonStringifyFields rest

end

/-- `(entry[field] ?? 0) + sumValue` where `sumValue` is a JS number
(`none` = NaN): string-ish accumulators concatenate, numeric ones add, NaN
poisons. -/
def addSum (current : Value) (sumValue : Option Int) : Value :=
  let numStr := match sumValue with
    | some n => toString n
    | none => "NaN"
  let base := if current.isNullish then Value.num 0 else current
  match base with
  | .str s => .str (s ++ numStr)
  | .arr l => .str ((Value.arr l).toJsString ++ numStr)
  | .obj _ => .str ("[object Object]" ++ numStr)
  | b =>
    match b.toJsNumber, sumValue with
    | some x, some y => .num (x + y)
    | _, _ => .nan

/-- `$sum`'s per-row value: the literal `1` counts, a string is a field
path read with `?? 0` then `Number(...)` (inner `none` = NaN); any other
accumulator argument throws inside `toPath` (outer `none`). -/
def sumValueOf (row : Doc) (sv : Value) : Option (Option Int) :=
  if sv.strictEq (.num 1) then some (some 1)
  else
    match sv with
    | .str p =>
      let v := getValue row p
      some (if v.isNullish then some 0 else v.toJsNumber)
    | _ => none

/-- `entry[field]` after a `$push` of `pushValue`. -/
def addPush (current : Value) (pushValue : Value) : Value :=
  match current with
  | .arr l => .arr (l ++ [pushValue])
  | _ => .arr [pushValue]

/-- Apply one accumulator specification `op` for `field` to a group entry
(both `$sum` and `$push` run when both are present); a non-object `op`
throws on the `'$sum' in op` test. -/
def applyAccumulator (row : Doc) (entry : Doc) (field : String) (op : Value) :
    Option Doc :=
  match op with
  | .obj opFields =>
    let entry1 :=
      if objHasKey opFields "$sum" then
        match sumValueOf row (objGet opFields "$sum") with
        | some sumValue => some (objSet entry field (addSum (objGet entry field) sumValue))
        | none => none
      else some entry
    match entry1 with
    | none => none
    | some entry1 =>
      if objHasKey opFields "$push" then
        match objGet opFields "$push" with
        | .str p =>
          some (objSet entry1 field (addPush (objGet entry1 field) (getValue row p)))
        | _ => none
      else some entry1
  | _ => none

/-- Fold one row's accumulators over a group entry. -/
def applyAccumRow (row : Doc) (entry : Doc) : List (String × Value) → Option Doc
  | [] => some entry
  | e :: rest =>
    if e.1 == "_id" then applyAccumRow row entry rest
    else
      match applyAccumulator row entry e.1 e.2 with
      | none => none
      | some entry' => applyAccumRow row entry' rest

/-- Group state: the `Map` from serialized key to its entry, in insertion
order. -/
abbrev GroupMap := List (Option String × Doc)

/-- `groups.get(key)`. -/
def groupLookup (groups : GroupMap) (key : Option String) : Option Doc :=
  match groups.find? (fun g => g.1 == key) with
  | some g => some g.2
  | none => none

/-- Replace the entry at `key` (the entry object is mutated in place in the
source). -/
def groupUpdate (groups : GroupMap) (key : Option String) (entry : Doc) : GroupMap :=
  groups.map fun g => if g.1 == key then (g.1, entry) else g

/-- Process one row of a `$group` stage. -/
def groupStep (groupSpec : Doc) (groups : GroupMap) (row : Doc) : Option GroupMap :=
  let idValue := evaluateGroupIdExpression row (objGet groupSpec "_id")
  let key := jsonStringify idValue
  let groups1 :=
    match groupLookup groups key with
    | some _ => groups
    | none => groups ++ [(key, [("_id", idValue)])]
  match groupLookup groups1 key with
  | none => none
  | some entry =>
    match applyAccumRow row entry groupSpec with
    | none => none
    | some entry' => some (groupUpdate groups1 key entry')

/-- The `$group` stage over materialized rows. -/
def groupRows (groupSpec : Doc) (rows : List Doc) : Option GroupMap :=
  rows.foldlM (groupStep groupSpec) []

/-- One pipeline stage of `aggregateRows`: `$match`, else `$sort`, else
`$group` (each gated by truthiness of the stage field), else a no-op. -/
def aggregateStage (current : List Doc) (stage : Doc) : Option (List Doc) :=
  if (objGet stage "$match").truthy then
    filterMatches regexTest (valueEntries (objGet stage "$match")) current
  else if (objGet stage "$sort").truthy then
    some (sortDocs (valueEntries (objGet stage "$sort")) current)
  else if (objGet stage "$group").truthy then
    (groupRows (valueEntries (objGet stage "$group")) current).map
      (fun groups => groups.map Prod.snd)
  else some current

/-- `aggregateRows(rows, pipeline)` (baseModel.js line 207). -/
def aggregateRows (rows : List Doc) (pipeline : List Doc) : Option (List Doc) :=
  pipeline.foldlM (aggregateStage regexTest) rows

/-! ### Storage client and engine state

One physical table; every stored item carries `model` and `pk`/`sk` (both
`"model#id"`).  `PutCommand` replaces the item with the same `(pk, sk)`
key, `DeleteCommand` removes it, `ScanCommand` with the model filter
returns every item of the model.  `crypto.randomUUID()` is an injective
fresh-string supply driven by `nextId`; `new Date().toISOString()` is the
`clock` (see the header). -/

/-- A model produced by `createModel(name, options)`: its `defaults` and
its `populates` map, each populate entry `field: \x7bmodel: target\x7d`
recorded as `(field, target)`. -/
structure Model where
  name : String
  defaults : Doc
  populates : List (String × String)

/-- The database state: the single table plus the id supply and the clock. -/
structure DB where
  items : List Doc
  nextId : Nat
  clock : Nat

/-- The fresh-id supply standing for `crypto.randomUUID()` (injective). -/
def uuid (n : Nat) : String :=
  String.mk (List.replicate n 'u')

theorem uuid_injective {m n : Nat} (h : uuid m = uuid n) : m = n := by
  have := congrArg (fun s => s.data.length) h
  simpa [uuid] using this

/-- `` `${name}#${id}` ``. -/
def pkOf (name : String) (idv : Value) : String :=
  name ++ "#" ++ idv.toJsString

/-- Key test of an item against a `(pk, sk)` pair. -/
def keyEq (it : Doc) (pkv skv : Value) : Bool :=
  (objGet it "pk").strictEq pkv && (objGet it "sk").strictEq skv

/-- `PutCommand`: replace the item carrying the new item's key, or append.
(Replacement rewrites every occurrence, which coincides with DynamoDB on
key-unique tables and keeps the get-after-put law unconditional.) -/
def dynamoPut (items : List Doc) (item : Doc) : List Doc :=
  if items.any (fun it => keyEq it (objGet item "pk") (objGet item "sk")) then
    items.map (fun it => if keyEq it (objGet item "pk") (objGet item "sk") then item else it)
  else items ++ [item]

/-- `DeleteCommand` with key `(pkv, skv)`. -/
def dynamoDelete (items : List Doc) (pkv skv : Value) : List Doc :=
  items.filter (fun it => !keyEq it pkv skv)

/-- `GetCommand` by a `pk = sk = key` point key. -/
def getItem (db : DB) (key : String) : Option Doc :=
  db.items.find? (fun it => keyEq it (.str key) (.str key))

/-- `_scanAll()` (baseModel.js line 255): the paginated scan drained to a
full list, filtered to the model's items. -/
def scanAll (db : DB) (m : Model) : List Doc :=
  db.items.filter (fun it => (objGet it "model").strictEq (.str m.name))

/-- The item written by `_put(data)` (baseModel.js line 274):
`\x7b...normalizeData(data), model, pk, sk\x7d`. -/
def mkItem (m : Model) (data : Doc) : Doc :=
  let pkv := Value.str (pkOf m.name (objGet data "_id"))
  spread (normalizeDataFields data)
    [("model", .str m.name), ("pk", pkv), ("sk", pkv)]

/-- `_put(data)` applied to the table. -/
def putItem (items : List Doc) (m : Model) (data : Doc) : List Doc :=
  dynamoPut items (mkItem m data)

/-- Advance the clock (time passes across engine operations). -/
def tick (db : DB) : DB :=
  { db with clock := db.clock + 1 }

/-! ### Mutation engine -/

/-- `create(payload)` (baseModel.js line 285): assemble
`\x7b_id: randomUUID(), ...defaults, ...payload, createdAt: now,
updatedAt: now\x7d`, put it, return the hydrated document (the assembled
object itself — hydration adds only non-enumerable closures). -/
def createDoc (m : Model) (db : DB) (payload : Doc) : DB × Doc :=
  let now := db.clock
  let doc :=
    spread (spread (spread [("_id", .str (uuid db.nextId))] m.defaults) payload)
      [("createdAt", .num now), ("updatedAt", .num now)]
  (⟨putItem db.items m doc, db.nextId + 1, db.clock + 1⟩, doc)

/-- `doc.save()` (baseModel.js line 101): bump `updatedAt` to now, put. -/
def saveDoc (db : DB) (m : Model) (d : Doc) : DB :=
  ⟨putItem db.items m (objSet d "updatedAt" (.num db.clock)), db.nextId, db.clock + 1⟩

/-- The `$set` walk plus the `updatedAt` refresh applied to one target row
of `updateMany` (baseModel.js lines 341-347). -/
def applyUpdateRow (row : Doc) (update : Doc) (now : Nat) : Doc :=
  let row1 :=
    if (objGet update "$set").truthy then
      (valueEntries (objGet update "$set")).foldl (fun r e => setValue r e.1 e.2) row
    else row
  objSet row1 "updatedAt" (.num now)

/-- `updateMany(filter, update)` (baseModel.js line 337): scan, filter,
then put each patched target; `none` when filter evaluation throws (which
happens before any write). -/
def updateMany (db : DB) (m : Model) (filter update : Doc) : Option DB :=
  let now := db.clock
  match filterMatches regexTest filter (scanAll db m) with
  | none => none
  | some targets =>
    some ⟨targets.foldl (fun its row => putItem its m (applyUpdateRow row update now)) db.items,
      db.nextId, db.clock + 1⟩

/-- `deleteMany(filter)` (baseModel.js line 377): scan, filter, then one
point delete per target keyed by the row's own `pk`/`sk` fields. -/
def deleteMany (db : DB) (m : Model) (filter : Doc) : Option DB :=
  match filterMatches regexTest filter (scanAll db m) with
  | none => none
  | some targets =>
    some ⟨targets.foldl (fun its row => dynamoDelete its (objGet row "pk") (objGet row "sk")) db.items,
      db.nextId, db.clock + 1⟩

/-! ### Query builder resolution -/

/-- The chainable state of a `QueryBuilder`. -/
structure Query where
  sortValue : Option Doc := none
  limitValue : Option Int := none
  populateField : Option String := none
  useLean : Bool := false

/-- `result.slice(0, limit)` (negative limits count from the end, as JS
`slice` does). -/
def jsSlice0 (l : List Doc) (k : Int) : List Doc :=
  if 0 ≤ k then l.take k.toNat else l.take ((l.length : Int) + k).toNat

/-- `registry.get(name)` — the model registry (`src/unnamed/part_016`). -/
def getModel (registry : List Model) (name : String) : Option Model :=
  registry.find? (fun m => m.name == name)

/-- The loader of `findById(id)` (baseModel.js line 298): point get by
`` `${name}#${id}` ``, kept only when the item's `model` matches. -/
def findByIdRows (db : DB) (m : Model) (idv : Value) : List Doc :=
  match getItem db (pkOf m.name idv) with
  | some item =>
    if (objGet item "model").strictEq (.str m.name) then [item] else []
  | none => []

/-- `targetModel.findById(id).lean()` resolved: first row or null. -/
def findByIdLean (db : DB) (m : Model) (idv : Value) : Option Doc :=
  (findByIdRows db m idv).head?

/-- `QueryBuilder._populate(docs)` (baseModel.js line 151): with a mapped
populate field and a registered target model, each row with a truthy
foreign key gets the field replaced by the loaded target (`null` when the
point lookup finds nothing); rows with a falsy foreign key pass through. -/
def populateDocs (registry : List Model) (db : DB) (m : Model)
    (field : Option String) (docs : List Doc) : List Doc :=
  match field with
  | none => docs
  | some f =>
    match m.populates.find? (fun e => e.1 == f) with
    | none => docs
    | some mapping =>
      match getModel registry mapping.2 with
      | none => docs
      | some tm =>
        docs.map fun d =>
          let idv := objGet d f
          if !idv.truthy then d
          else
            match findByIdLean db tm idv with
            | some t => objSet d f (.obj t)
            | none => objSet d f .null

/-- `QueryBuilder.exec()` (baseModel.js line 169) on loaded rows:
load → sort → limit → populate (hydration is data-identity). -/
def execList (registry : List Model) (db : DB) (m : Model) (q : Query)
    (loaded : List Doc) : List Doc :=
  let r1 := match q.sortValue with
    | some s => sortDocs s loaded
    | none => loaded
  let r2 := match q.limitValue with
    | some k => jsSlice0 r1 k
    | none => r1
  populateDocs registry db m q.populateField r2

/-- `find(filter, projection)` (baseModel.js line 311) resolved through
`exec`. -/
def execFind (registry : List Model) (db : DB) (m : Model)
    (filter : Doc) (projection : Option Doc) (q : Query) : Option (List Doc) :=
  match filterMatches regexTest filter (scanAll db m) with
  | none => none
  | some rows =>
    some (execList registry db m q (rows.map (fun d => applyProjection d projection)))

/-- `findOne(filter)` (baseModel.js line 320) resolved: first of the
pipeline output or null. -/
def execFindOne (registry : List Model) (db : DB) (m : Model)
    (filter : Doc) (q : Query) : Option (Option Doc) :=
  match filterMatches regexTest filter (scanAll db m) with
  | none => none
  | some rows => some (execList registry db m q rows).head?

/-- `findById(id)` resolved (no throwing path). -/
def execFindById (registry : List Model) (db : DB) (m : Model)
    (idv : Value) (q : Query) : Option Doc :=
  (execList registry db m q (findByIdRows db m idv)).head?

/-- `findOneAndUpdate(filter, update, options)` (baseModel.js line 354):
miss + upsert creates from `\x7b...filter, ...update\x7d`; a hit is
`Object.assign`ed with the update and saved. -/
def findOneAndUpdate (registry : List Model) (db : DB) (m : Model)
    (filter update : Doc) (upsert : Bool) : Option DB :=
  match execFindOne regexTest registry db m filter {} with
  | none => none
  | some none => if upsert then some (createDoc m db (spread filter update)).1 else some (tick db)
  | some (some d) => some (saveDoc db m (spread d update))

/-- `updateOne(filter, update, options)` (baseModel.js line 365): miss +
upsert creates from `\x7b...filter, ...(update.$setOnInsert ?? \x7b\x7d)\x7d`;
a hit with a `$set` is assigned the `$set` fields and saved. -/
def updateOne (registry : List Model) (db : DB) (m : Model)
    (filter update : Doc) (upsert : Bool) : Option DB :=
  match execFindOne regexTest registry db m filter {} with
  | none => none
  | some none =>
    if upsert then
      some (createDoc m db (spread filter (valueEntries (objGet update "$setOnInsert")))).1
    else some (tick db)
  | some (some d) =>
    if (objGet update "$set").truthy then
      some (saveDoc db m (spread d (valueEntries (objGet update "$set"))))
    else some (tick db)

/-! ### Engine operations and reachability -/

/-- One caller-visible mutation of the engine. -/
inductive Op where
  | create (payload : Doc)
  | updateMany (filter update : Doc)
  | updateOne (filter update : Doc) (upsert : Bool)
  | findOneAndUpdate (filter update : Doc) (upsert : Bool)
  | deleteMany (filter : Doc)

/-- Apply one operation; an operation that throws while filtering has not
yet written anything, so it leaves the state unchanged. -/
def applyOp (registry : List Model) (m : Model) (db : DB) : Op → DB
  | .create payload => (createDoc m db payload).1
  | .updateMany filter update => (updateMany regexTest db m filter update).getD db
  | .updateOne filter update upsert =>
    (updateOne regexTest registry db m filter update upsert).getD db
  | .findOneAndUpdate filter update upsert =>
    (findOneAndUpdate regexTest registry db m filter update upsert).getD db
  | .deleteMany filter => (deleteMany regexTest db m filter).getD db

/-- Run a sequence of operations. -/
def runOps (registry : List Model) (m : Model) (db : DB) (ops : List Op) : DB :=
  ops.foldl (applyOp regexTest registry m) db

/-! ## Lemma kit: object primitives -/

theorem objGet_nil (q : String) : objGet [] q = .undef := rfl

theorem objGet_cons (a : String) (w : Value) (d : Doc) (q : String) :
    objGet ((a, w) :: d) q = if a = q then w else objGet d q := by
  simp only [objGet, List.find?]
  by_cases h : a = q
  · simp [h]
  · simp only [show ((a, w).1 == q) = false by simpa using h]
    simp [h]

theorem objHasKey_nil (q : String) : objHasKey [] q = false := rfl

theorem objHasKey_cons (a : String) (w : Value) (d : Doc) (q : String) :
    objHasKey ((a, w) :: d) q = (a == q || objHasKey d q) := by
  simp [objHasKey]

theorem objGet_append (d1 d2 : Doc) (q : String) :
    objGet (d1 ++ d2) q = if objHasKey d1 q then objGet d1 q else objGet d2 q := by
  induction d1 with
  | nil => simp [objHasKey_nil, objGet_nil]
  | cons e rest ih =>
    rcases e with ⟨a, w⟩
    rw [List.cons_append, objGet_cons, objHasKey_cons, objGet_cons]
    by_cases h : a = q
    · simp [h]
    · simp only [h, if_false, show (a == q) = false by simpa using h, Bool.false_or]
      exact ih

theorem objGet_eq_undef_of_not_hasKey (d : Doc) (q : String)
    (h : objHasKey d q = false) : objGet d q = .undef := by
  induction d with
  | nil => rfl
  | cons e rest ih =>
    rcases e with ⟨a, w⟩
    rw [objHasKey_cons] at h
    rw [objGet_cons]
    simp only [Bool.or_eq_false_iff] at h
    have ha : a ≠ q := by simpa using h.1
    simp [ha, ih h.2]

theorem objGet_mapSet (d : Doc) (k : String) (v : Value) (q : String) :
    objGet (d.map (fun e => if e.1 == k then (e.1, v) else e)) q =
      if q = k ∧ objHasKey d q then v else objGet d q := by
  induction d with
  | nil => simp [objGet_nil, objHasKey_nil]
  | cons e rest ih =>
    rcases e with ⟨a, w⟩
    by_cases hak : a = k
    · subst hak
      simp only [List.map_cons, beq_self_eq_true, if_true]
      rw [objGet_cons, objGet_cons, objHasKey_cons]
      by_cases haq : a = q
      · simp [haq]
      · simp only [haq, if_false, show (a == q) = false by simpa using haq,
          Bool.false_or]
        exact ih
    · have hc : ¬((((a, w).1 == k) = true)) := by simpa using hak
      simp only [List.map_cons, if_neg hc]
      rw [objGet_cons, objGet_cons, objHasKey_cons]
      by_cases haq : a = q
      · have hqk : ¬(q = k) := fun h => hak (haq.trans h)
        simp [haq, hqk]
      · simp only [haq, if_false, show (a == q) = false by simpa using haq,
          Bool.false_or]
        exact ih

theorem objHasKey_objSet (d : Doc) (k : String) (v : Value) (q : String) :
    objHasKey (objSet d k v) q = (objHasKey d q || q == k) := by
  unfold objSet
  by_cases h : objHasKey d k
  · rw [if_pos h]
    have hkeys : ∀ (d0 : Doc), objHasKey (d0.map (fun e => if e.1 == k then (e.1, v) else e)) q
        = objHasKey d0 q := by
      intro d0
      induction d0 with
      | nil => rfl
      | cons e rest ih =>
        rcases e with ⟨a, w⟩
        by_cases hak : a = k
        · subst hak
          simp only [List.map_cons, beq_self_eq_true, if_true]
          rw [objHasKey_cons, objHasKey_cons, ih]
        · have hc : ¬((((a, w).1 == k) = true)) := by simpa using hak
          simp only [List.map_cons, if_neg hc]
          rw [objHasKey_cons, objHasKey_cons, ih]
    rw [hkeys]
    by_cases hqk : q = k
    · subst hqk
      simp [h]
    · simp [hqk]
  · rw [if_neg h]
    unfold objHasKey
    rw [List.any_append]
    simp only [List.any_cons, List.any_nil, Bool.or_false]
    congr 1
    by_cases hkq : k = q
    · simp [hkq]
    · simp [hkq, Ne.symm hkq]

theorem objGet_objSet (d : Doc) (k : String) (v : Value) (q : String) :
    objGet (objSet d k v) q = if q = k then v else objGet d q := by
  unfold objSet
  by_cases h : objHasKey d k
  · rw [if_pos h]
    rw [objGet_mapSet]
    by_cases hqk : q = k
    · subst hqk
      simp [h]
    · simp [hqk]
  · rw [if_neg h]
    rw [objGet_append]
    by_cases hdq : objHasKey d q
    · have hqk : ¬(q = k) := by
        intro he
        subst he
        simp [hdq] at h
      simp [hdq, hqk]
    · simp only [hdq, if_false]
      rw [objGet_cons]
      rw [objGet_eq_undef_of_not_hasKey d q (by simpa using hdq)]
      simp [eq_comm, objGet_nil]

theorem objHasKey_spread (a b : Doc) (q : String) :
    objHasKey (spread a b) q = (objHasKey a q || objHasKey b q) := by
  induction b generalizing a with
  | nil => simp [spread, objHasKey_nil]
  | cons e rest ih =>
    rcases e with ⟨k, v⟩
    show objHasKey (spread (objSet a k v) rest) q = _
    rw [ih, objHasKey_objSet, objHasKey_cons]
    by_cases hqk : q = k
    · subst hqk
      simp
    · simp only [show (k == q) = false by simp [Ne.symm hqk],
        show (q == k) = false by simpa using hqk]
      simp [Bool.or_assoc, Bool.or_comm]

theorem objGet_spread (a b : Doc) (q : String) (hb : (objKeys b).Nodup) :
    objGet (spread a b) q = if objHasKey b q then objGet b q else objGet a q := by
  induction b generalizing a with
  | nil => simp [spread, objHasKey_nil]
  | cons e rest ih =>
    rcases e with ⟨k, v⟩
    simp only [objKeys, List.map_cons, List.nodup_cons] at hb
    show objGet (spread (objSet a k v) rest) q = _
    rw [ih _ hb.2, objHasKey_cons, objGet_cons]
    by_cases hqk : q = k
    · subst hqk
      have hrest : objHasKey rest q = false := by
        simp only [objHasKey]
        rw [List.any_eq_false]
        intro e he
        simp only [beq_iff_eq]
        intro hek
        exact hb.1 (hek ▸ List.mem_map_of_mem Prod.fst he)
      simp [hrest, objGet_objSet]
    · simp only [show (k == q) = false by simp [Ne.symm hqk], Bool.false_or,
        show ¬(k = q) from Ne.symm hqk, if_false]
      by_cases hr : objHasKey rest q
      · simp [hr]
      · simp [hr, objGet_objSet, hqk]

/-- In a key-unique object, a member entry is what `objGet` returns. -/
theorem objGet_of_mem (d : Doc) (k : String) (v : Value)
    (hmem : (k, v) ∈ d) (hnd : (objKeys d).Nodup) : objGet d k = v := by
  induction d with
  | nil => cases hmem
  | cons e rest ih =>
    rcases e with ⟨a, w⟩
    simp only [objKeys, List.map_cons, List.nodup_cons] at hnd
    rw [objGet_cons]
    rcases List.mem_cons.mp hmem with he | he
    · rw [Prod.mk.injEq] at he
      simp [he.1, he.2]
    · have ha : ¬(a = k) := by
        intro h
        exact hnd.1 (h ▸ List.mem_map_of_mem Prod.fst he)
      simp [ha, ih he hnd.2]

theorem objSet_of_not_hasKey (d : Doc) (k : String) (v : Value)
    (h : objHasKey d k = false) : objSet d k v = d ++ [(k, v)] := by
  unfold objSet
  rw [if_neg (by simp [h])]

/-! ## Lemma kit: values and filters -/

theorem strictEq_str_iff (a b : String) :
    (Value.str a).strictEq (.str b) = true ↔ a = b := by
  simp [Value.strictEq]

/-- Strict equality never holds between a nullish and a non-nullish value. -/
theorem strictEq_false_of_nullish_left {a b : Value}
    (ha : a.isNullish = true) (hb : b.isNullish = false) :
    a.strictEq b = false := by
  cases a <;> cases b <;> simp_all [Value.isNullish, Value.strictEq]

/-- A pointwise-defined filter evaluation turns `filterMatches` into
`List.filter`. -/
theorem filterMatches_eq_filter (f : Doc) (rows : List Doc) (p : Doc → Bool)
    (h : ∀ d ∈ rows, matchesFilter regexTest d f = some (p d)) :
    filterMatches regexTest f rows = some (rows.filter p) := by
  induction rows with
  | nil => rfl
  | cons d rest ih =>
    have hd := h d (List.mem_cons_self d rest)
    have hrest := ih (fun x hx => h x (List.mem_cons_of_mem d hx))
    simp only [filterMatches, hd, hrest, Option.map_some]
    cases hp : p d <;> simp [List.filter_cons, hp]

/-- Members of a successful filter pass matched and came from the input. -/
theorem filterMatches_mem (f : Doc) (rows l : List Doc)
    (h : filterMatches regexTest f rows = some l) :
    ∀ d ∈ l, d ∈ rows ∧ matchesFilter regexTest d f = some true := by
  induction rows generalizing l with
  | nil =>
    simp only [filterMatches, Option.some.injEq] at h
    subst h
    intro d hd
    cases hd
  | cons x rest ih =>
    simp only [filterMatches] at h
    rcases hm : matchesFilter regexTest x f with _ | b
    · rw [hm] at h; cases h
    · rw [hm] at h
      cases b with
      | true =>
        rcases hr : filterMatches regexTest f rest with _ | lr
        · rw [hr] at h; cases h
        · rw [hr] at h
          simp at h
          subst h
          intro d hd
          rcases List.mem_cons.mp hd with hdx | hdl
          · exact ⟨List.mem_cons.mpr (Or.inl hdx), by rw [hdx]; exact hm⟩
          · have := ih lr hr d hdl
            exact ⟨List.mem_cons_of_mem x this.1, this.2⟩
      | false =>
        rcases hr : filterMatches regexTest f rest with _ | lr
        · rw [hr] at h; cases h
        · rw [hr] at h
          simp at h
          subst h
          intro d hd
          have := ih lr hr d hd
          exact ⟨List.mem_cons_of_mem x this.1, this.2⟩

/-- An empty successful filter means every row evaluated to `false`. -/
theorem filterMatches_all_false (f : Doc) (rows : List Doc)
    (h : filterMatches regexTest f rows = some []) :
    ∀ d ∈ rows, matchesFilter regexTest d f = some false := by
  induction rows with
  | nil => intro d hd; cases hd
  | cons x rest ih =>
    simp only [filterMatches] at h
    rcases hm : matchesFilter regexTest x f with _ | b
    · rw [hm] at h; cases h
    · rw [hm] at h
      cases b with
      | true =>
        rcases hr : filterMatches regexTest f rest with _ | lr
        · rw [hr] at h; cases h
        · rw [hr] at h
          simp at h
      | false =>
        rcases hr : filterMatches regexTest f rest with _ | lr
        · rw [hr] at h; cases h
        · rw [hr] at h
          simp at h
          intro d hd
          rcases List.mem_cons.mp hd with hdx | hdl
          · rw [hdx]
            exact hm
          · exact ih (h ▸ hr) d hdl

/-- `filterMatches` distributes over append. -/
theorem filterMatches_append (f : Doc) (r1 r2 : List Doc) :
    filterMatches regexTest f (r1 ++ r2) =
      match filterMatches regexTest f r1, filterMatches regexTest f r2 with
      | some a, some b => some (a ++ b)
      | _, _ => none := by
  induction r1 with
  | nil =>
    rcases h2 : filterMatches regexTest f r2 with _ | l <;>
      simp [filterMatches, h2]
  | cons x rest ih =>
    simp only [List.cons_append, filterMatches]
    rcases hm : matchesFilter regexTest x f with _ | b
    · rfl
    · rcases h1 : filterMatches regexTest f rest with _ | a <;>
        rcases h2 : filterMatches regexTest f r2 with _ | c <;>
        cases b <;> simp [ih, h1, h2]

/-! ## Lemma kit: storage -/

theorem mem_scanAll (db : DB) (m : Model) (x : Doc) (h : x ∈ scanAll db m) :
    x ∈ db.items := (List.mem_filter.mp h).1

/-- Whatever sits in the table after a put was there before or is the new
item. -/
theorem mem_dynamoPut (items : List Doc) (it x : Doc)
    (h : x ∈ dynamoPut items it) : x ∈ items ∨ x = it := by
  unfold dynamoPut at h
  split at h
  · rcases List.mem_map.mp h with ⟨y, hy, hyx⟩
    by_cases hk : keyEq y (objGet it "pk") (objGet it "sk")
    · right
      rw [if_pos hk] at hyx
      exact hyx.symm
    · left
      rw [if_neg hk] at hyx
      exact hyx ▸ hy
  · rcases List.mem_append.mp h with hx | hx
    · exact Or.inl hx
    · right
      simpa using hx

/-- `mkItem` leaves every field other than `model`/`pk`/`sk` as it is in
the data. -/
theorem mkItem_get (m : Model) (data : Doc) (k : String)
    (h1 : k ≠ "model") (h2 : k ≠ "pk") (h3 : k ≠ "sk") :
    objGet (mkItem m data) k = objGet data k := by
  unfold mkItem
  rw [objGet_spread _ _ _ (by simp [objKeys])]
  rw [normalizeDataFields_id]
  simp [objHasKey_cons, objHasKey_nil, Ne.symm h1, Ne.symm h2, Ne.symm h3]

theorem mkItem_model (m : Model) (data : Doc) :
    objGet (mkItem m data) "model" = .str m.name := by
  unfold mkItem
  rw [objGet_spread _ _ _ (by simp [objKeys])]
  simp [objHasKey_cons, objGet_cons]

theorem mkItem_pk (m : Model) (data : Doc) :
    objGet (mkItem m data) "pk" = .str (pkOf m.name (objGet data "_id")) := by
  unfold mkItem
  rw [objGet_spread _ _ _ (by simp [objKeys])]
  simp [objHasKey_cons, objGet_cons]

theorem mkItem_sk (m : Model) (data : Doc) :
    objGet (mkItem m data) "sk" = .str (pkOf m.name (objGet data "_id")) := by
  unfold mkItem
  rw [objGet_spread _ _ _ (by simp [objKeys])]
  simp [objHasKey_cons, objGet_cons]

/-- Auxiliary step for `find?_dynamoPut`: the replacing map. -/
theorem find?_map_replace (items : List Doc) (it : Doc) (k : String)
    (hit : keyEq it (.str k) (.str k) = true)
    (hany : items.any (fun x => keyEq x (.str k) (.str k)) = true) :
    (items.map (fun x => if keyEq x (.str k) (.str k) then it else x)).find?
      (fun x => keyEq x (.str k) (.str k)) = some it := by
  induction items with
  | nil => simp at hany
  | cons y rest ih =>
    simp only [List.map_cons]
    by_cases hky : keyEq y (.str k) (.str k)
    · rw [if_pos hky]
      simp [List.find?, hit]
    · rw [if_neg hky]
      have hrest : rest.any (fun x => keyEq x (.str k) (.str k)) = true := by
        simp only [List.any_cons] at hany
        rcases Bool.or_eq_true_iff.mp hany with h1 | h1
        · exact absurd h1 hky
        · exact h1
      have hky2 : keyEq y (.str k) (.str k) = false := by simpa using hky
      simp [List.find?, hky2, ih hrest]

/-- The point get after a put of an item carrying the looked-up key finds
exactly the new item. -/
theorem find?_dynamoPut (items : List Doc) (it : Doc) (k : String)
    (hpk : objGet it "pk" = .str k) (hsk : objGet it "sk" = .str k) :
    (dynamoPut items it).find? (fun x => keyEq x (.str k) (.str k)) = some it := by
  have hit : keyEq it (.str k) (.str k) = true := by
    simp [keyEq, hpk, hsk, Value.strictEq]
  unfold dynamoPut
  rw [hpk, hsk]
  by_cases hany : items.any (fun x => keyEq x (.str k) (.str k))
  · rw [if_pos hany]
    exact find?_map_replace items it k hit hany
  · rw [if_neg hany]
    rw [List.find?_append]
    have : items.find? (fun x => keyEq x (.str k) (.str k)) = none := by
      rw [List.find?_eq_none]
      intro x hx
      rw [List.any_eq_true] at hany
      push_neg at hany
      simpa using hany x hx
    simp [this, List.find?, hit]

theorem getItem_putItem (db : DB) (m : Model) (data : Doc) (n c : Nat) :
    getItem ⟨putItem db.items m data, n, c⟩ (pkOf m.name (objGet data "_id")) =
      some (mkItem m data) := by
  unfold getItem putItem
  exact find?_dynamoPut db.items (mkItem m data) _ (mkItem_pk m data) (mkItem_sk m data)

/-- A concrete regular-expression semantics used by witnesses and
counterexamples (no claim exercises `$regex`; all general theorems hold for
every semantics). -/
def noRegex : Value → Value → String → Option Bool := fun _ _ _ => none

/-- Resolving a builder with no sort, limit or populate returns the loaded
rows unchanged. -/
theorem execList_default (registry : List Model) (db : DB) (m : Model)
    (l : List Doc) : execList registry db m {} l = l := rfl

/-! ## C8 — unsupported operator shapes -/

/-- An operator object the evaluator recognizes none of: no `$in`, no
`$regex`, no `$gt`. -/
def unsupportedOpShape : Value → Bool
  | .obj fields =>
    !(objHasKey fields "$in" || objHasKey fields "$regex" || objHasKey fields "$gt")
  | _ => false

theorem evalFilterEntry_unsupported (regexTest : Value → Value → String → Option Bool)
    (doc : Doc) (k : String) (v : Value) (hshape : unsupportedOpShape v = true) :
    evalFilterEntry regexTest doc (k, v) = some false := by
  cases v with
  | obj fields =>
    simp only [unsupportedOpShape, Bool.not_eq_true', Bool.or_eq_false_iff] at hshape
    simp [evalFilterEntry, hshape.1.1, hshape.1.2, hshape.2]
  | _ => simp [unsupportedOpShape] at hshape

/-- C8, amended: a filter entry whose value is an operator object of an
unsupported shape evaluates to `false` without throwing, so the whole
filter can never match the document — it evaluates to `false` unless
evaluation of some other entry throws first (a non-array `$in` argument or
an invalid regular expression), in which case that error propagates. -/
theorem c8_unsupported_shape_never_matches
    (regexTest : Value → Value → String → Option Bool)
    (doc filter : Doc) (k : String) (v : Value)
    (hmem : (k, v) ∈ filter) (hshape : unsupportedOpShape v = true) :
    evalFilterEntry regexTest doc (k, v) = some false ∧
    matchesFilter regexTest doc filter ≠ some true ∧
    ((∀ e ∈ filter, evalFilterEntry regexTest doc e ≠ none) →
      matchesFilter regexTest doc filter = some false) := by
  refine ⟨evalFilterEntry_unsupported regexTest doc k v hshape, ?_, ?_⟩
  · induction filter with
    | nil => cases hmem
    | cons e rest ih =>
      simp only [matchesFilter]
      rcases List.mem_cons.mp hmem with he | he
      · rw [← he, evalFilterEntry_unsupported regexTest doc k v hshape]
        simp
      · rcases hev : evalFilterEntry regexTest doc e with _ | b
        · simp
        · cases b
          · simp
          · exact ih he
  · induction filter with
    | nil => cases hmem
    | cons e rest ih =>
      intro hnothrow
      simp only [matchesFilter]
      rcases List.mem_cons.mp hmem with he | he
      · rw [← he, evalFilterEntry_unsupported regexTest doc k v hshape]
      · rcases hev : evalFilterEntry regexTest doc e with _ | b
        · exact absurd hev (hnothrow e (List.mem_cons_self e rest))
        · cases b
          · rfl
          · exact ih he (fun x hx => hnothrow x (List.mem_cons_of_mem e hx))

/-- C8, counterexample to the claim as stated: the filter
`\x7ba: \x7b$in: 5\x7d, b: \x7b\x7d\x7d` holds an operator object of
unsupported shape at key `b`, yet evaluating it against the empty document
throws (`expected.$in.map` on the number `5` is a TypeError) instead of
returning `false`. -/
theorem c8_counterexample :
    unsupportedOpShape (.obj []) = true ∧
    (("b", Value.obj []) ∈
      ([("a", Value.obj [("$in", Value.num 5)]), ("b", Value.obj [])] : Doc)) ∧
    matchesFilter noRegex []
      [("a", .obj [("$in", .num 5)]), ("b", .obj [])] = none := by
  refine ⟨rfl, by simp, rfl⟩

/-! ## C7 — filter operators -/

/-- `find(filter)` without projection resolved with a fresh builder is just
the filtered scan. -/
theorem execFind_plain (regexTest : Value → Value → String → Option Bool)
    (registry : List Model) (db : DB) (m : Model) (f : Doc) :
    execFind regexTest registry db m f none {} =
      filterMatches regexTest f (scanAll db m) := by
  unfold execFind
  rcases h : filterMatches regexTest f (scanAll db m) with _ | rows <;>
    simp [h, execList_default, applyProjection]

/-- A one-entry filter evaluates to its entry's result. -/
theorem matchesFilter_singleton (regexTest : Value → Value → String → Option Bool)
    (d : Doc) (e : String × Value) :
    matchesFilter regexTest d [e] =
      evalFilterEntry regexTest d e := by
  simp only [matchesFilter]
  rcases h : evalFilterEntry regexTest d e with _ | b
  · rfl
  · cases b <;> rfl

/-- The specification-side reading of `score > 5`-style filters: the field
holds a number strictly above the bound. -/
def numGtSpec (d : Doc) (field : String) (bound : Int) : Bool :=
  match objGet d field with
  | .num n => bound < n
  | _ => false

/-- The specification-side reading of `tag in ["a","b"]`-style filters: the
field holds one of the allowed strings. -/
def strInSpec (d : Doc) (field : String) (allowed : List String) : Bool :=
  match objGet d field with
  | .str s => allowed.contains s
  | _ => false

/-- C7: over stores whose documents carry a numeric `score` and a string
`tag`, `find(\x7bscore: \x7b$gt: 5\x7d\x7d)` returns exactly the documents
with `score > 5`, and `find(\x7btag: \x7b$in: ["a","b"]\x7d\x7d)` returns
exactly the documents whose tag is `"a"` or `"b"`. -/
theorem c7_filter_operators (regexTest : Value → Value → String → Option Bool)
    (registry : List Model) (db : DB) (m : Model)
    (hscore : ∀ d ∈ scanAll db m, ∃ n : Int, objGet d "score" = .num n)
    (htag : ∀ d ∈ scanAll db m, ∃ s : String, objGet d "tag" = .str s) :
    execFind regexTest registry db m [("score", .obj [("$gt", .num 5)])] none {} =
      some ((scanAll db m).filter (fun d => numGtSpec d "score" 5)) ∧
    execFind regexTest registry db m
        [("tag", .obj [("$in", .arr [.str "a", .str "b"])])] none {} =
      some ((scanAll db m).filter (fun d => strInSpec d "tag" ["a", "b"])) := by
  constructor
  · rw [execFind_plain]
    apply filterMatches_eq_filter
    intro d hd
    rcases hscore d hd with ⟨n, hn⟩
    rw [matchesFilter_singleton]
    have hev : evalFilterEntry regexTest d ("score", .obj [("$gt", .num 5)]) =
        some (jsNumGt (objGet d "score") (.num 5)) := rfl
    rw [hev, hn]
    simp [numGtSpec, hn, jsNumGt, Value.toJsNumber]
  · rw [execFind_plain]
    apply filterMatches_eq_filter
    intro d hd
    rcases htag d hd with ⟨s, hs⟩
    rw [matchesFilter_singleton]
    have hev : evalFilterEntry regexTest d
        ("tag", .obj [("$in", .arr [.str "a", .str "b"])]) =
        some (List.contains ["a", "b"] (objGet d "tag").toJsString) := rfl
    rw [hev, hs]
    simp [strInSpec, hs, Value.toJsString]

/-- A small sample model used by several witnesses. -/
def sampleModel : Model := ⟨"M", [], []⟩

/-- First sample row for the C7 witness. -/
def c7row1 : Doc :=
  [("score", Value.num 3), ("tag", Value.str "a"), ("model", Value.str "M")]

/-- Second sample row for the C7 witness. -/
def c7row2 : Doc :=
  [("score", Value.num 7), ("tag", Value.str "c"), ("model", Value.str "M")]

/-- Sample store for the C7 witness. -/
def c7db : DB := ⟨[c7row1, c7row2], 0, 0⟩

/-- Witness for `c7_filter_operators` at a concrete two-document store. -/
theorem c7_witness :
    (∀ d ∈ scanAll c7db sampleModel, ∃ n : Int, objGet d "score" = .num n) ∧
    (∀ d ∈ scanAll c7db sampleModel, ∃ s : String, objGet d "tag" = .str s) ∧
    (execFind noRegex [] c7db sampleModel
        [("score", .obj [("$gt", .num 5)])] none {} =
      some ((scanAll c7db sampleModel).filter (fun d => numGtSpec d "score" 5)) ∧
    execFind noRegex [] c7db sampleModel
        [("tag", .obj [("$in", .arr [.str "a", .str "b"])])] none {} =
      some ((scanAll c7db sampleModel).filter (fun d => strInSpec d "tag" ["a", "b"]))) := by
  have hscan : scanAll c7db sampleModel = [c7row1, c7row2] := rfl
  have h1 : ∀ d ∈ scanAll c7db sampleModel, ∃ n : Int, objGet d "score" = .num n := by
    intro d hd
    rw [hscan] at hd
    rcases List.mem_cons.mp hd with h | h
    · exact ⟨3, by rw [h]; rfl⟩
    · have h2 := List.mem_singleton.mp h
      exact ⟨7, by rw [h2]; rfl⟩
  have h2 : ∀ d ∈ scanAll c7db sampleModel, ∃ s : String, objGet d "tag" = .str s := by
    intro d hd
    rw [hscan] at hd
    rcases List.mem_cons.mp hd with h | h
    · exact ⟨"a", by rw [h]; rfl⟩
    · have h2 := List.mem_singleton.mp h
      exact ⟨"c", by rw [h2]; rfl⟩
  exact ⟨h1, h2, c7_filter_operators noRegex [] c7db sampleModel h1 h2⟩

/-! ## C1 — create/findById round trip -/

/-- The empty store. -/
def emptyDB : DB := ⟨[], 0, 0⟩

/-- The engine-owned item keys that `create`/`_put` always overwrite. -/
def engineKeys : List String := ["createdAt", "updatedAt", "model", "pk", "sk"]

/-- C1, counterexample to the claim as stated: for the payload
`\x7bcreatedAt: "x"\x7d` the round-tripped document's `createdAt` is the
engine's creation timestamp, not the merged payload value, so its fields do
not equal defaults-merged-with-payload. -/
theorem c1_counterexample :
    objGet (spread sampleModel.defaults [("createdAt", Value.str "x")]) "createdAt"
      = Value.str "x" ∧
    (execFindById [] (createDoc sampleModel emptyDB [("createdAt", Value.str "x")]).1
        sampleModel
        (objGet (createDoc sampleModel emptyDB [("createdAt", Value.str "x")]).2 "_id")
        {}).map (fun it => objGet it "createdAt") = some (Value.num 0) ∧
    Value.num 0 ≠ Value.str "x" :=
  ⟨rfl, rfl, fun h => Value.noConfusion h⟩

/-- C1, amended: for payloads and defaults that stay clear of the
engine-owned keys (`createdAt`, `updatedAt`, `model`, `pk`, `sk`),
`create(P)` followed by `findById` on the new document's id returns an item
agreeing with defaults-merged-with-P (P winning) on every merged key, and
its `createdAt` equals its `updatedAt`. -/
theorem c1_roundtrip (registry : List Model) (db : DB) (m : Model) (payload : Doc)
    (hd : (objKeys m.defaults).Nodup) (hp : (objKeys payload).Nodup)
    (hdSys : ∀ k ∈ engineKeys, objHasKey m.defaults k = false)
    (hpSys : ∀ k ∈ engineKeys, objHasKey payload k = false) :
    ∃ item, execFindById registry (createDoc m db payload).1 m
        (objGet (createDoc m db payload).2 "_id") {} = some item ∧
      (∀ k, objHasKey (spread m.defaults payload) k = true →
        objGet item k = objGet (spread m.defaults payload) k) ∧
      objGet item "createdAt" = objGet item "updatedAt" := by
  have hb2 : (objKeys [("createdAt", Value.num db.clock),
      ("updatedAt", Value.num db.clock)]).Nodup := by simp [objKeys]
  set doc := (createDoc m db payload).2 with hdoc
  have hdocDef : doc = spread (spread (spread [("_id", .str (uuid db.nextId))]
      m.defaults) payload)
      [("createdAt", .num db.clock), ("updatedAt", .num db.clock)] := rfl
  have hfound : execFindById registry (createDoc m db payload).1 m
      (objGet doc "_id") {} = some (mkItem m doc) := by
    show (execList registry _ m {} (findByIdRows _ m (objGet doc "_id"))).head? = _
    rw [execList_default]
    unfold findByIdRows
    have hget : getItem (createDoc m db payload).1 (pkOf m.name (objGet doc "_id"))
        = some (mkItem m doc) :=
      getItem_putItem db m doc (db.nextId + 1) (db.clock + 1)
    rw [hget]
    show (if (objGet (mkItem m doc) "model").strictEq (.str m.name) = true
        then [mkItem m doc] else []).head? = some (mkItem m doc)
    rw [mkItem_model, if_pos (by simp [Value.strictEq])]
    rfl
  refine ⟨mkItem m doc, hfound, ?_, ?_⟩
  · intro k hk
    rw [objHasKey_spread] at hk
    have hkSys : ∀ s ∈ engineKeys, k ≠ s := by
      intro s hs he
      subst he
      rw [hdSys k hs, hpSys k hs] at hk
      simp at hk
    have h1 := hkSys "createdAt" (by simp [engineKeys])
    have h2 := hkSys "updatedAt" (by simp [engineKeys])
    have h3 := hkSys "model" (by simp [engineKeys])
    have h4 := hkSys "pk" (by simp [engineKeys])
    have h5 := hkSys "sk" (by simp [engineKeys])
    rw [mkItem_get m doc k h3 h4 h5]
    rw [hdocDef]
    rw [objGet_spread _ _ _ hb2]
    rw [if_neg (by simp [objHasKey_cons, objHasKey_nil, Ne.symm h1, Ne.symm h2])]
    rw [objGet_spread _ _ _ hp, objGet_spread _ _ _ hp]
    by_cases hkp : objHasKey payload k
    · simp [hkp]
    · simp only [show objHasKey payload k = false by simpa using hkp,
        Bool.false_eq_true, if_false]
      rw [objGet_spread _ _ _ hd]
      rcases Bool.or_eq_true_iff.mp hk with hkd | hkp2
      · simp [hkd]
      · exact absurd hkp2 (by simpa using hkp)
  · have hc : objGet (mkItem m doc) "createdAt" = .num db.clock := by
      rw [mkItem_get m doc _ (by decide) (by decide) (by decide), hdocDef]
      rw [objGet_spread _ _ _ hb2]
      rw [if_pos (by simp [objHasKey_cons])]
      simp [objGet_cons]
    have hu : objGet (mkItem m doc) "updatedAt" = .num db.clock := by
      rw [mkItem_get m doc _ (by decide) (by decide) (by decide), hdocDef]
      rw [objGet_spread _ _ _ hb2]
      rw [if_pos (by simp [objHasKey_cons])]
      simp [objGet_cons]
    rw [hc, hu]

/-- Sample model with a default, for the C1 witness. -/
def c1m : Model := ⟨"M", [("bio", Value.str "")], []⟩

/-- Witness for `c1_roundtrip` at a concrete payload. -/
theorem c1_witness :
    (objKeys c1m.defaults).Nodup ∧
    (objKeys [("name", Value.str "Ann")]).Nodup ∧
    (∀ k ∈ engineKeys, objHasKey c1m.defaults k = false) ∧
    (∀ k ∈ engineKeys, objHasKey [("name", Value.str "Ann")] k = false) ∧
    ∃ item, execFindById [] (createDoc c1m emptyDB [("name", Value.str "Ann")]).1 c1m
        (objGet (createDoc c1m emptyDB [("name", Value.str "Ann")]).2 "_id") {} = some item ∧
      (∀ k, objHasKey (spread c1m.defaults [("name", Value.str "Ann")]) k = true →
        objGet item k = objGet (spread c1m.defaults [("name", Value.str "Ann")]) k) ∧
      objGet item "createdAt" = objGet item "updatedAt" :=
  ⟨by decide, by decide, by decide, by decide,
    c1_roundtrip [] emptyDB c1m [("name", Value.str "Ann")]
      (by decide) (by decide) (by decide) (by decide)⟩

/-! ## C5 — timestamp invariant -/

theorem splitOnChar_ne_nil (c : Char) (l : List Char) : splitOnChar c l ≠ [] := by
  cases l with
  | nil => simp [splitOnChar]
  | cons x xs =>
    simp only [splitOnChar]
    rcases h : splitOnChar c xs with _ | ⟨g, gs⟩
    · simp
    · by_cases hx : x = c <;> simp [hx]

/-- The set walk only rewrites the first path segment's member. -/
theorem setPath_obj (d : Doc) (k0 : String) (rest : List String) (v : Value) :
    ∃ w, (Value.obj d).setPath (k0 :: rest) v = .obj (objSet d k0 w) := by
  cases rest with
  | nil => exact ⟨v, rfl⟩
  | cons r rs => exact ⟨_, rfl⟩

/-- `setValue` leaves top-level keys other than the path's first segment
unchanged. -/
theorem objGet_setValue_ne (d : Doc) (path : String) (v : Value) (k : String)
    (h : (splitPath path).head? ≠ some k) :
    objGet (setValue d path v) k = objGet d k := by
  unfold setValue
  rcases hsp : splitPath path with _ | ⟨s0, srest⟩
  · exact absurd hsp (by simpa [splitPath] using splitOnChar_ne_nil '.' path.data)
  · rcases setPath_obj d s0 srest v with ⟨w, hw⟩
    rw [hw]
    show objGet (objSet d s0 w) k = objGet d k
    rw [objGet_objSet]
    rw [hsp] at h
    simp only [List.head?] at h
    rw [if_neg (fun he => h (by rw [he]))]

/-- A fold of `setValue`s whose paths all start away from `k` leaves `k`
unchanged. -/
theorem foldl_setValue_get (entries : List (String × Value)) (row : Doc) (k : String)
    (h : ∀ e ∈ entries, (splitPath e.1).head? ≠ some k) :
    objGet (entries.foldl (fun r e => setValue r e.1 e.2) row) k = objGet row k := by
  induction entries generalizing row with
  | nil => rfl
  | cons e rest ih =>
    rw [List.foldl_cons, ih _ (fun x hx => h x (List.mem_cons_of_mem e hx))]
    exact objGet_setValue_ne row e.1 e.2 k (h e (List.mem_cons_self e rest))

theorem applyUpdateRow_updatedAt (row update : Doc) (now : Nat) :
    objGet (applyUpdateRow row update now) "updatedAt" = .num now := by
  unfold applyUpdateRow
  rw [objGet_objSet, if_pos rfl]

theorem applyUpdateRow_createdAt (row update : Doc) (now : Nat)
    (h : ∀ e ∈ valueEntries (objGet update "$set"),
      (splitPath e.1).head? ≠ some "createdAt") :
    objGet (applyUpdateRow row update now) "createdAt" = objGet row "createdAt" := by
  unfold applyUpdateRow
  rw [objGet_objSet, if_neg (by decide)]
  by_cases ht : (objGet update "$set").truthy
  · rw [if_pos ht]
    exact foldl_setValue_get _ row "createdAt" h
  · rw [if_neg ht]

/-- `objGet` through a spread whose right side misses the key. -/
theorem objGet_spread_notin (a b : Doc) (k : String)
    (h : objHasKey b k = false) : objGet (spread a b) k = objGet a k := by
  induction b generalizing a with
  | nil => rfl
  | cons e rest ih =>
    rw [objHasKey_cons, Bool.or_eq_false_iff] at h
    show objGet (spread (objSet a e.1 e.2) rest) k = _
    have h1 : e.1 ≠ k := by simpa using h.1
    rw [ih _ h.2, objGet_objSet, if_neg (fun he => h1 he.symm)]

theorem objHasKey_false_of_forall_ne (b : Doc) (k : String)
    (h : ∀ e ∈ b, e.1 ≠ k) : objHasKey b k = false := by
  unfold objHasKey
  rw [List.any_eq_false]
  intro e he
  simpa using h e he

/-- Everything in the table after a batch of puts was there before or is
one of the written items. -/
theorem mem_foldl_putItem (targets : List Doc) (items : List Doc) (m : Model)
    (f : Doc → Doc) :
    ∀ x ∈ targets.foldl (fun its row => putItem its m (f row)) items,
      x ∈ items ∨ ∃ row ∈ targets, x = mkItem m (f row) := by
  induction targets generalizing items with
  | nil =>
    intro x hx
    exact Or.inl hx
  | cons t rest ih =>
    intro x hx
    rw [List.foldl_cons] at hx
    rcases ih _ x hx with hin | ⟨row, hrow, hxr⟩
    · rcases mem_dynamoPut _ _ _ hin with h1 | h1
      · exact Or.inl h1
      · exact Or.inr ⟨t, List.mem_cons_self t rest, h1⟩
    · exact Or.inr ⟨row, List.mem_cons_of_mem t hrow, hxr⟩

/-- Deletes only shrink the table. -/
theorem mem_foldl_dynamoDelete (targets : List Doc) (items : List Doc) :
    ∀ x ∈ targets.foldl (fun its row =>
        dynamoDelete its (objGet row "pk") (objGet row "sk")) items,
      x ∈ items := by
  induction targets generalizing items with
  | nil => intro x hx; exact hx
  | cons t rest ih =>
    intro x hx
    rw [List.foldl_cons] at hx
    exact List.mem_filter.mp (ih _ x hx) |>.1

/-- A hit of `findOne` with a fresh builder is a stored, matching row. -/
theorem execFindOne_mem (regexTest : Value → Value → String → Option Bool)
    (registry : List Model) (db : DB) (m : Model) (filter : Doc) (d : Doc)
    (h : execFindOne regexTest registry db m filter {} = some (some d)) :
    d ∈ db.items ∧ matchesFilter regexTest d filter = some true := by
  unfold execFindOne at h
  rcases hfm : filterMatches regexTest filter (scanAll db m) with _ | rows
  · rw [hfm] at h; cases h
  · rw [hfm] at h
    simp only [execList_default, Option.some.injEq] at h
    have hd : d ∈ rows := by
      rcases rows with _ | ⟨r0, rrest⟩
      · simp at h
      · simp only [List.head?, Option.some.injEq] at h
        rw [← h]
        exact List.mem_cons_self r0 rrest
    have := filterMatches_mem regexTest filter (scanAll db m) rows hfm d hd
    exact ⟨mem_scanAll db m d this.1, this.2⟩

theorem createDoc_createdAt (m : Model) (db : DB) (payload : Doc) :
    objGet (createDoc m db payload).2 "createdAt" = .num db.clock := by
  show objGet (spread _ [("createdAt", Value.num db.clock),
      ("updatedAt", Value.num db.clock)]) "createdAt" = _
  rw [objGet_spread _ _ _ (by simp [objKeys])]
  rw [if_pos (by simp [objHasKey_cons])]
  simp [objGet_cons]

theorem createDoc_updatedAt (m : Model) (db : DB) (payload : Doc) :
    objGet (createDoc m db payload).2 "updatedAt" = .num db.clock := by
  show objGet (spread _ [("createdAt", Value.num db.clock),
      ("updatedAt", Value.num db.clock)]) "updatedAt" = _
  rw [objGet_spread _ _ _ (by simp [objKeys])]
  rw [if_pos (by simp [objHasKey_cons])]
  simp [objGet_cons]

/-- The persistent timestamp invariant: every stored item carries numeric
`createdAt ≤ updatedAt`, both in the store's past. -/
def TimeOK (db : DB) : Prop :=
  ∀ it ∈ db.items, ∃ c u : Nat, objGet it "createdAt" = .num c ∧
    objGet it "updatedAt" = .num u ∧ c ≤ u ∧ u < db.clock

/-- The operation's update payload never writes `createdAt` (top-level for
assignments, first path segment for `$set` paths). -/
def opAvoidsCreatedAt : Op → Prop
  | .create _ => True
  | .updateMany _ update =>
    ∀ e ∈ valueEntries (objGet update "$set"), (splitPath e.1).head? ≠ some "createdAt"
  | .updateOne _ update _ =>
    ∀ e ∈ valueEntries (objGet update "$set"), e.1 ≠ "createdAt"
  | .findOneAndUpdate _ update _ => ∀ e ∈ update, e.1 ≠ "createdAt"
  | .deleteMany _ => True

theorem timeOK_tick (db : DB) (hinv : TimeOK db) : TimeOK (tick db) := by
  intro it hit
  rcases hinv it hit with ⟨c, u, h1, h2, h3, h4⟩
  exact ⟨c, u, h1, h2, h3, Nat.lt_succ_of_lt h4⟩

theorem timeOK_createDoc (m : Model) (db : DB) (payload : Doc)
    (hinv : TimeOK db) : TimeOK (createDoc m db payload).1 := by
  intro it hit
  rcases mem_dynamoPut _ _ it hit with hold | hnew
  · rcases hinv it hold with ⟨c, u, h1, h2, h3, h4⟩
    exact ⟨c, u, h1, h2, h3, Nat.lt_succ_of_lt h4⟩
  · subst hnew
    refine ⟨db.clock, db.clock, ?_, ?_, le_refl _, Nat.lt_succ_self _⟩
    · rw [mkItem_get _ _ _ (by decide) (by decide) (by decide)]
      exact createDoc_createdAt m db payload
    · rw [mkItem_get _ _ _ (by decide) (by decide) (by decide)]
      exact createDoc_updatedAt m db payload

theorem timeOK_saveDoc (db : DB) (m : Model) (d : Doc)
    (hinv : TimeOK db) (hd : d ∈ db.items)
    (hkeep : objGet d "createdAt" = objGet d "createdAt") :
    TimeOK (saveDoc db m d) := by
  intro it hit
  rcases mem_dynamoPut _ _ it hit with hold | hnew
  · rcases hinv it hold with ⟨c, u, h1, h2, h3, h4⟩
    exact ⟨c, u, h1, h2, h3, Nat.lt_succ_of_lt h4⟩
  · subst hnew
    rcases hinv d hd with ⟨c, u, h1, h2, h3, h4⟩
    refine ⟨c, db.clock, ?_, ?_, le_of_lt (lt_of_le_of_lt h3 h4), Nat.lt_succ_self _⟩
    · rw [mkItem_get _ _ _ (by decide) (by decide) (by decide)]
      rw [objGet_objSet, if_neg (by decide)]
      exact h1
    · rw [mkItem_get _ _ _ (by decide) (by decide) (by decide)]
      rw [objGet_objSet, if_pos rfl]

/-- One engine operation whose patch avoids `createdAt` preserves the
timestamp invariant. -/
theorem timeOK_applyOp (regexTest : Value → Value → String → Option Bool)
    (registry : List Model) (m : Model) (db : DB) (op : Op)
    (hinv : TimeOK db) (havoid : opAvoidsCreatedAt op) :
    TimeOK (applyOp regexTest registry m db op) := by
  cases op with
  | create payload => exact timeOK_createDoc m db payload hinv
  | updateMany filter update =>
    show TimeOK ((updateMany regexTest db m filter update).getD db)
    rcases hu : updateMany regexTest db m filter update with _ | db'
    · exact hinv
    · simp only [Option.getD]
      unfold updateMany at hu
      rcases hfm : filterMatches regexTest filter (scanAll db m) with _ | targets
      · rw [hfm] at hu; cases hu
      · rw [hfm] at hu
        simp only [Option.some.injEq] at hu
        subst hu
        intro it hit
        rcases mem_foldl_putItem targets db.items m _ it hit with hold | ⟨row, hrow, hxr⟩
        · rcases hinv it hold with ⟨c, u, h1, h2, h3, h4⟩
          exact ⟨c, u, h1, h2, h3, Nat.lt_succ_of_lt h4⟩
        · subst hxr
          have hrowmem : row ∈ db.items :=
            mem_scanAll db m row
              (filterMatches_mem regexTest filter (scanAll db m) targets hfm row hrow).1
          rcases hinv row hrowmem with ⟨c, u, h1, h2, h3, h4⟩
          refine ⟨c, db.clock, ?_, ?_,
            le_of_lt (lt_of_le_of_lt h3 h4), Nat.lt_succ_self _⟩
          · rw [mkItem_get _ _ _ (by decide) (by decide) (by decide),
              applyUpdateRow_createdAt row update db.clock havoid, h1]
          · rw [mkItem_get _ _ _ (by decide) (by decide) (by decide),
              applyUpdateRow_updatedAt]
  | updateOne filter update upsert =>
    show TimeOK ((updateOne regexTest registry db m filter update upsert).getD db)
    rcases hu : updateOne regexTest registry db m filter update upsert with _ | db'
    · exact hinv
    · simp only [Option.getD]
      unfold updateOne at hu
      rcases hfo : execFindOne regexTest registry db m filter {} with _ | od
      · rw [hfo] at hu; cases hu
      · rw [hfo] at hu
        cases od with
        | none =>
          replace hu : (if upsert = true then
              some (createDoc m db (spread filter
                (valueEntries (objGet update "$setOnInsert")))).1
            else some (tick db)) = some db' := hu
          by_cases hup : upsert = true
          · rw [if_pos hup] at hu
            simp only [Option.some.injEq] at hu
            subst hu
            exact timeOK_createDoc m db _ hinv
          · rw [if_neg hup] at hu
            simp only [Option.some.injEq] at hu
            subst hu
            exact timeOK_tick db hinv
        | some d =>
          replace hu : (if (objGet update "$set").truthy = true then
              some (saveDoc db m (spread d (valueEntries (objGet update "$set"))))
            else some (tick db)) = some db' := hu
          have hdmem := execFindOne_mem regexTest registry db m filter d hfo
          by_cases hset : (objGet update "$set").truthy = true
          · rw [if_pos hset] at hu
            simp only [Option.some.injEq] at hu
            subst hu
            intro it hit
            rcases mem_dynamoPut _ _ it hit with hold | hnew
            · rcases hinv it hold with ⟨c, u, h1, h2, h3, h4⟩
              exact ⟨c, u, h1, h2, h3, Nat.lt_succ_of_lt h4⟩
            · subst hnew
              rcases hinv d hdmem.1 with ⟨c, u, h1, h2, h3, h4⟩
              refine ⟨c, db.clock, ?_, ?_,
                le_of_lt (lt_of_le_of_lt h3 h4), Nat.lt_succ_self _⟩
              · rw [mkItem_get _ _ _ (by decide) (by decide) (by decide)]
                rw [objGet_objSet, if_neg (by decide)]
                rw [objGet_spread_notin _ _ _
                  (objHasKey_false_of_forall_ne _ _ havoid), h1]
              · rw [mkItem_get _ _ _ (by decide) (by decide) (by decide)]
                rw [objGet_objSet, if_pos rfl]
          · rw [if_neg hset] at hu
            simp only [Option.some.injEq] at hu
            subst hu
            exact timeOK_tick db hinv
  | findOneAndUpdate filter update upsert =>
    show TimeOK ((findOneAndUpdate regexTest registry db m filter update upsert).getD db)
    rcases hu : findOneAndUpdate regexTest registry db m filter update upsert with _ | db'
    · exact hinv
    · simp only [Option.getD]
      unfold findOneAndUpdate at hu
      rcases hfo : execFindOne regexTest registry db m filter {} with _ | od
      · rw [hfo] at hu; cases hu
      · rw [hfo] at hu
        cases od with
        | none =>
          replace hu : (if upsert = true then
              some (createDoc m db (spread filter update)).1
            else some (tick db)) = some db' := hu
          by_cases hup : upsert = true
          · rw [if_pos hup] at hu
            simp only [Option.some.injEq] at hu
            subst hu
            exact timeOK_createDoc m db _ hinv
          · rw [if_neg hup] at hu
            simp only [Option.some.injEq] at hu
            subst hu
            exact timeOK_tick db hinv
        | some d =>
          replace hu : some (saveDoc db m (spread d update)) = some db' := hu
          have hdmem := execFindOne_mem regexTest registry db m filter d hfo
          simp only [Option.some.injEq] at hu
          subst hu
          intro it hit
          rcases mem_dynamoPut _ _ it hit with hold | hnew
          · rcases hinv it hold with ⟨c, u, h1, h2, h3, h4⟩
            exact ⟨c, u, h1, h2, h3, Nat.lt_succ_of_lt h4⟩
          · subst hnew
            rcases hinv d hdmem.1 with ⟨c, u, h1, h2, h3, h4⟩
            refine ⟨c, db.clock, ?_, ?_,
              le_of_lt (lt_of_le_of_lt h3 h4), Nat.lt_succ_self _⟩
            · rw [mkItem_get _ _ _ (by decide) (by decide) (by decide)]
              rw [objGet_objSet, if_neg (by decide)]
              rw [objGet_spread_notin _ _ _
                (objHasKey_false_of_forall_ne _ _ havoid), h1]
            · rw [mkItem_get _ _ _ (by decide) (by decide) (by decide)]
              rw [objGet_objSet, if_pos rfl]
  | deleteMany filter =>
    show TimeOK ((deleteMany regexTest db m filter).getD db)
    rcases hu : deleteMany regexTest db m filter with _ | db'
    · exact hinv
    · simp only [Option.getD]
      unfold deleteMany at hu
      rcases hfm : filterMatches regexTest filter (scanAll db m) with _ | targets
      · rw [hfm] at hu; cases hu
      · rw [hfm] at hu
        simp only [Option.some.injEq] at hu
        subst hu
        intro it hit
        have hold := mem_foldl_dynamoDelete targets db.items it hit
        rcases hinv it hold with ⟨c, u, h1, h2, h3, h4⟩
        exact ⟨c, u, h1, h2, h3, Nat.lt_succ_of_lt h4⟩

/-- Reachability preserves the timestamp invariant. -/
theorem timeOK_runOps (regexTest : Value → Value → String → Option Bool)
    (registry : List Model) (m : Model) :
    ∀ (ops : List Op) (db : DB), TimeOK db → (∀ op ∈ ops, opAvoidsCreatedAt op) →
      TimeOK (runOps regexTest registry m db ops) := by
  intro ops
  induction ops with
  | nil => intro db hinv _; exact hinv
  | cons op rest ih =>
    intro db hinv havoid
    show TimeOK (runOps regexTest registry m (applyOp regexTest registry m db op) rest)
    exact ih _ (timeOK_applyOp regexTest registry m db op hinv
        (havoid op (List.mem_cons_self op rest)))
      (fun x hx => havoid x (List.mem_cons_of_mem op hx))

/-- Every item an operation changes or creates is stamped with the
operation's clock. -/
theorem refresh_applyOp (regexTest : Value → Value → String → Option Bool)
    (registry : List Model) (m : Model) (db : DB) (op : Op) :
    ∀ it ∈ (applyOp regexTest registry m db op).items, it ∉ db.items →
      objGet it "updatedAt" = .num db.clock := by
  cases op with
  | create payload =>
    intro it hit hnot
    rcases mem_dynamoPut _ _ it hit with hold | hnew
    · exact absurd hold hnot
    · subst hnew
      rw [mkItem_get _ _ _ (by decide) (by decide) (by decide)]
      exact createDoc_updatedAt m db payload
  | updateMany filter update =>
    show ∀ it ∈ ((updateMany regexTest db m filter update).getD db).items, _
    rcases hu : updateMany regexTest db m filter update with _ | db'
    · intro it hit hnot
      exact absurd hit hnot
    · simp only [Option.getD]
      unfold updateMany at hu
      rcases hfm : filterMatches regexTest filter (scanAll db m) with _ | targets
      · rw [hfm] at hu; cases hu
      · rw [hfm] at hu
        simp only [Option.some.injEq] at hu
        subst hu
        intro it hit hnot
        rcases mem_foldl_putItem targets db.items m _ it hit with hold | ⟨row, _, hxr⟩
        · exact absurd hold hnot
        · subst hxr
          rw [mkItem_get _ _ _ (by decide) (by decide) (by decide),
            applyUpdateRow_updatedAt]
  | updateOne filter update upsert =>
    show ∀ it ∈ ((updateOne regexTest registry db m filter update upsert).getD db).items, _
    rcases hu : updateOne regexTest registry db m filter update upsert with _ | db'
    · intro it hit hnot
      exact absurd hit hnot
    · simp only [Option.getD]
      unfold updateOne at hu
      rcases hfo : execFindOne regexTest registry db m filter {} with _ | od
      · rw [hfo] at hu; cases hu
      · rw [hfo] at hu
        cases od with
        | none =>
          replace hu : (if upsert = true then
              some (createDoc m db (spread filter
                (valueEntries (objGet update "$setOnInsert")))).1
            else some (tick db)) = some db' := hu
          by_cases hup : upsert = true
          · rw [if_pos hup] at hu
            simp only [Option.some.injEq] at hu
            subst hu
            intro it hit hnot
            rcases mem_dynamoPut _ _ it hit with hold | hnew
            · exact absurd hold hnot
            · subst hnew
              rw [mkItem_get _ _ _ (by decide) (by decide) (by decide)]
              exact createDoc_updatedAt m db _
          · rw [if_neg hup] at hu
            simp only [Option.some.injEq] at hu
            subst hu
            intro it hit hnot
            exact absurd hit hnot
        | some d =>
          replace hu : (if (objGet update "$set").truthy = true then
              some (saveDoc db m (spread d (valueEntries (objGet update "$set"))))
            else some (tick db)) = some db' := hu
          by_cases hset : (objGet update "$set").truthy = true
          · rw [if_pos hset] at hu
            simp only [Option.some.injEq] at hu
            subst hu
            intro it hit hnot
            rcases mem_dynamoPut _ _ it hit with hold | hnew
            · exact absurd hold hnot
            · subst hnew
              rw [mkItem_get _ _ _ (by decide) (by decide) (by decide)]
              rw [objGet_objSet, if_pos rfl]
          · rw [if_neg hset] at hu
            simp only [Option.some.injEq] at hu
            subst hu
            intro it hit hnot
            exact absurd hit hnot
  | findOneAndUpdate filter update upsert =>
    show ∀ it ∈ ((findOneAndUpdate regexTest registry db m filter update upsert).getD db).items, _
    rcases hu : findOneAndUpdate regexTest registry db m filter update upsert with _ | db'
    · intro it hit hnot
      exact absurd hit hnot
    · simp only [Option.getD]
      unfold findOneAndUpdate at hu
      rcases hfo : execFindOne regexTest registry db m filter {} with _ | od
      · rw [hfo] at hu; cases hu
      · rw [hfo] at hu
        cases od with
        | none =>
          replace hu : (if upsert = true then
              some (createDoc m db (spread filter update)).1
            else some (tick db)) = some db' := hu
          by_cases hup : upsert = true
          · rw [if_pos hup] at hu
            simp only [Option.some.injEq] at hu
            subst hu
            intro it hit hnot
            rcases mem_dynamoPut _ _ it hit with hold | hnew
            · exact absurd hold hnot
            · subst hnew
              rw [mkItem_get _ _ _ (by decide) (by decide) (by decide)]
              exact createDoc_updatedAt m db _
          · rw [if_neg hup] at hu
            simp only [Option.some.injEq] at hu
            subst hu
            intro it hit hnot
            exact absurd hit hnot
        | some d =>
          replace hu : some (saveDoc db m (spread d update)) = some db' := hu
          simp only [Option.some.injEq] at hu
          subst hu
          intro it hit hnot
          rcases mem_dynamoPut _ _ it hit with hold | hnew
          · exact absurd hold hnot
          · subst hnew
            rw [mkItem_get _ _ _ (by decide) (by decide) (by decide)]
            rw [objGet_objSet, if_pos rfl]
  | deleteMany filter =>
    show ∀ it ∈ ((deleteMany regexTest db m filter).getD db).items, _
    rcases hu : deleteMany regexTest db m filter with _ | db'
    · intro it hit hnot
      exact absurd hit hnot
    · simp only [Option.getD]
      unfold deleteMany at hu
      rcases hfm : filterMatches regexTest filter (scanAll db m) with _ | targets
      · rw [hfm] at hu; cases hu
      · rw [hfm] at hu
        simp only [Option.some.injEq] at hu
        subst hu
        intro it hit hnot
        exact absurd (mem_foldl_dynamoDelete targets db.items it hit) hnot

/-- C5, amended: provided no update patch writes `createdAt`, every store
state reachable through the engine's operations keeps `updatedAt ≥
createdAt` on every document; and unconditionally, every document an
operation (or a hydrated document's `save`) writes is stamped with the
mutation-time clock as its `updatedAt`. -/
theorem c5_updatedAt_invariant (regexTest : Value → Value → String → Option Bool)
    (registry : List Model) (m : Model) :
    (∀ (db : DB) (ops : List Op), TimeOK db →
      (∀ op ∈ ops, opAvoidsCreatedAt op) →
      TimeOK (runOps regexTest registry m db ops)) ∧
    (∀ (db : DB) (op : Op), ∀ it ∈ (applyOp regexTest registry m db op).items,
      it ∉ db.items → objGet it "updatedAt" = .num db.clock) ∧
    (∀ (db : DB) (m2 : Model) (d : Doc), ∀ it ∈ (saveDoc db m2 d).items,
      it ∉ db.items → objGet it "updatedAt" = .num db.clock) := by
  refine ⟨fun db ops hinv havoid => timeOK_runOps regexTest registry m ops db hinv havoid,
    fun db op => refresh_applyOp regexTest registry m db op,
    ?_⟩
  intro db m2 d it hit hnot
  rcases mem_dynamoPut _ _ it hit with hold | hnew
  · exact absurd hold hnot
  · subst hnew
    rw [mkItem_get _ _ _ (by decide) (by decide) (by decide)]
    rw [objGet_objSet, if_pos rfl]

/-- C5, counterexample to the claim as stated: an `updateMany` whose
`$set` writes `createdAt` produces a reachable store whose only document
has `createdAt = 99 > updatedAt = 1`. -/
theorem c5_counterexample :
    (runOps noRegex [] sampleModel emptyDB
      [.create [], .updateMany [] [("$set", .obj [("createdAt", .num 99)])]]).items.map
      (fun d => (objGet d "createdAt", objGet d "updatedAt")) =
      [(.num 99, .num 1)] ∧
    ¬((99 : Int) ≤ 1) := ⟨rfl, by decide⟩

/-- Witness for `c5_updatedAt_invariant` at a concrete run. -/
theorem c5_witness :
    TimeOK emptyDB ∧
    (∀ op ∈ ([.create [("a", Value.num 7)],
        .updateMany [] [("$set", .obj [("a", Value.num 8)])]] : List Op),
      opAvoidsCreatedAt op) ∧
    TimeOK (runOps noRegex [] sampleModel emptyDB
      [.create [("a", Value.num 7)],
       .updateMany [] [("$set", .obj [("a", Value.num 8)])]]) := by
  have h1 : TimeOK emptyDB := by
    intro it hit
    cases hit
  have h2 : ∀ op ∈ ([.create [("a", Value.num 7)],
      .updateMany [] [("$set", .obj [("a", Value.num 8)])]] : List Op),
      opAvoidsCreatedAt op := by
    intro op hop
    rcases List.mem_cons.mp hop with h | h
    · rw [h]; exact trivial
    · rw [List.mem_singleton.mp h]
      intro e he
      rcases List.mem_singleton.mp he with h2
      rw [h2]
      decide
  exact ⟨h1, h2, (c5_updatedAt_invariant noRegex [] sampleModel).1 emptyDB _ h1 h2⟩

/-! ## C6 — identity management -/

/-- A well-formed table of a model: every item has a string id and carries
its canonical `pk`/`sk` (which is how `_put` always writes items). -/
def CanonItems (m : Model) (items : List Doc) : Prop :=
  ∀ it ∈ items, (∃ s, objGet it "_id" = .str s) ∧
    objGet it "pk" = .str (pkOf m.name (objGet it "_id")) ∧
    objGet it "sk" = .str (pkOf m.name (objGet it "_id"))

theorem pkOf_str_inj (name : String) (s1 s2 : String)
    (h : pkOf name (.str s1) = pkOf name (.str s2)) : s1 = s2 := by
  have hd := congrArg String.data h
  simp only [pkOf, Value.toJsString, String.data_append] at hd
  exact String.ext (List.append_cancel_left hd)

/-- General form of the `applyUpdateRow` key-preservation: a key distinct
from `updatedAt` that no `$set` path starts at is untouched. -/
theorem applyUpdateRow_get (row update : Doc) (now : Nat) (k : String)
    (hk : k ≠ "updatedAt")
    (h : ∀ e ∈ valueEntries (objGet update "$set"), (splitPath e.1).head? ≠ some k) :
    objGet (applyUpdateRow row update now) k = objGet row k := by
  unfold applyUpdateRow
  rw [objGet_objSet, if_neg hk]
  by_cases ht : (objGet update "$set").truthy
  · rw [if_pos ht]
    exact foldl_setValue_get _ row k h
  · rw [if_neg ht]

/-- Putting data whose id already names a stored item replaces that item in
place: the table's id column is unchanged, and well-formedness is kept. -/
theorem putItem_map_id (m : Model) (items : List Doc) (data : Doc) (s : String)
    (hid : objGet data "_id" = .str s)
    (hcanon : CanonItems m items)
    (hex : ∃ it0 ∈ items, objGet it0 "_id" = .str s) :
    (putItem items m data).map (fun it => objGet it "_id") =
      items.map (fun it => objGet it "_id") ∧
    CanonItems m (putItem items m data) := by
  have hpk : objGet (mkItem m data) "pk" = .str (pkOf m.name (.str s)) := by
    rw [mkItem_pk, hid]
  have hsk : objGet (mkItem m data) "sk" = .str (pkOf m.name (.str s)) := by
    rw [mkItem_sk, hid]
  have hmkid : objGet (mkItem m data) "_id" = .str s := by
    rw [mkItem_get _ _ _ (by decide) (by decide) (by decide), hid]
  rcases hex with ⟨it0, hit0, hit0id⟩
  have hit0key : keyEq it0 (objGet (mkItem m data) "pk") (objGet (mkItem m data) "sk") = true := by
    rcases hcanon it0 hit0 with ⟨_, hp, hs2⟩
    rw [hpk, hsk]
    simp [keyEq, hp, hs2, hit0id, Value.strictEq]
  have hany : items.any (fun it => keyEq it (objGet (mkItem m data) "pk")
      (objGet (mkItem m data) "sk")) = true :=
    List.any_eq_true.mpr ⟨it0, hit0, hit0key⟩
  have hput : putItem items m data = items.map (fun it =>
      if keyEq it (objGet (mkItem m data) "pk") (objGet (mkItem m data) "sk")
      then mkItem m data else it) := by
    unfold putItem dynamoPut
    rw [if_pos hany]
  constructor
  · rw [hput, List.map_map]
    apply List.map_congr_left
    intro it hit
    rw [Function.comp_apply]
    by_cases hk : keyEq it (objGet (mkItem m data) "pk") (objGet (mkItem m data) "sk") = true
    · rw [if_pos hk]
      rcases hcanon it hit with ⟨⟨s2, hs2⟩, hp, _⟩
      have : objGet it "pk" = .str (pkOf m.name (.str s)) := by
        simp only [keyEq, Bool.and_eq_true] at hk
        rcases hk with ⟨hk1, _⟩
        rw [hpk] at hk1
        cases hval : objGet it "pk" with
        | str t =>
          rw [hval] at hk1
          simp only [Value.strictEq, beq_iff_eq] at hk1
          rw [hk1]
        | _ =>
          rw [hval] at hk1
          simp [Value.strictEq] at hk1
      rw [hp, hs2] at this
      simp only [Value.str.injEq] at this
      have hss : s2 = s := pkOf_str_inj m.name s2 s (by simpa [hs2] using this)
      rw [hmkid, hs2, hss]
    · rw [if_neg hk]
  · rw [hput]
    intro it hit
    rcases List.mem_map.mp hit with ⟨y, hy, hyy⟩
    by_cases hk : keyEq y (objGet (mkItem m data) "pk") (objGet (mkItem m data) "sk") = true
    · rw [if_pos hk] at hyy
      subst hyy
      exact ⟨⟨s, hmkid⟩, by rw [mkItem_pk, hid, hmkid], by rw [mkItem_sk, hid, hmkid]⟩
    · rw [if_neg hk] at hyy
      subst hyy
      exact hcanon y hy

/-- The `updateMany` put loop leaves the table's id column unchanged when
no `$set` path starts at `_id`. -/
theorem foldl_putItem_map_id (m : Model) (update : Doc) (now : Nat)
    (hset : ∀ e ∈ valueEntries (objGet update "$set"),
      (splitPath e.1).head? ≠ some "_id") :
    ∀ (targets : List Doc) (items : List Doc),
      CanonItems m items →
      (∀ row ∈ targets, ∃ s, objGet row "_id" = .str s ∧
        (Value.str s) ∈ items.map (fun it => objGet it "_id")) →
      (targets.foldl (fun its row => putItem its m (applyUpdateRow row update now))
          items).map (fun it => objGet it "_id") =
        items.map (fun it => objGet it "_id") := by
  intro targets
  induction targets with
  | nil => intro items _ _; rfl
  | cons row rest ih =>
    intro items hcanon hrows
    rcases hrows row (List.mem_cons_self row rest) with ⟨s, hs, hsin⟩
    have hid : objGet (applyUpdateRow row update now) "_id" = .str s := by
      rw [applyUpdateRow_get row update now "_id" (by decide) hset, hs]
    have hex : ∃ it0 ∈ items, objGet it0 "_id" = .str s := by
      rcases List.mem_map.mp hsin with ⟨it0, hit0, hit0e⟩
      exact ⟨it0, hit0, hit0e⟩
    rcases putItem_map_id m items (applyUpdateRow row update now) s hid hcanon hex
      with ⟨hmap, hcanon'⟩
    rw [List.foldl_cons]
    rw [ih _ hcanon' ?_]
    · exact hmap
    · intro r hr
      rcases hrows r (List.mem_cons_of_mem row hr) with ⟨s2, hs2, hsin2⟩
      exact ⟨s2, hs2, by rw [hmap]; exact hsin2⟩

/-- C6, counterexample to the claim as stated: `create(\x7b_id: "x"\x7d)`
stores the payload's id, not a freshly generated one; and an `updateMany`
whose `$set` writes `_id` changes the id column (duplicating the row under
a new key). -/
theorem c6_counterexample :
    objGet ((createDoc sampleModel emptyDB [("_id", Value.str "x")]).2) "_id"
      = .str "x" ∧
    ("x" : String) ≠ uuid emptyDB.nextId ∧
    (runOps noRegex [] sampleModel emptyDB
      [.create [], .updateMany [] [("$set", .obj [("_id", .str "z")])]]).items.map
      (fun d => objGet d "_id") = [.str (uuid 0), .str "z"] :=
  ⟨rfl, by decide, rfl⟩

/-- C6, amended: when neither payload nor defaults supply `_id`, `create`
assigns the fresh generated id and two successive creates get distinct
ids; `updateMany` whose `$set` stays away from `_id` leaves the table's id
column unchanged (on a well-formed table); and `save` writes an item with
the document's own id. -/
theorem c6_id_management (regexTest : Value → Value → String → Option Bool)
    (m : Model) :
    (∀ (db : DB) (p1 p2 : Doc),
      objHasKey m.defaults "_id" = false →
      objHasKey p1 "_id" = false → objHasKey p2 "_id" = false →
      objGet (createDoc m db p1).2 "_id" = .str (uuid db.nextId) ∧
      objGet (createDoc m (createDoc m db p1).1 p2).2 "_id"
        = .str (uuid (db.nextId + 1)) ∧
      objGet (createDoc m db p1).2 "_id"
        ≠ objGet (createDoc m (createDoc m db p1).1 p2).2 "_id") ∧
    (∀ (db db' : DB) (filter update : Doc),
      CanonItems m db.items →
      (∀ e ∈ valueEntries (objGet update "$set"),
        (splitPath e.1).head? ≠ some "_id") →
      updateMany regexTest db m filter update = some db' →
      db'.items.map (fun it => objGet it "_id") =
        db.items.map (fun it => objGet it "_id")) ∧
    (∀ (db : DB) (m2 : Model) (d : Doc),
      objGet (mkItem m2 (objSet d "updatedAt" (.num db.clock))) "_id"
        = objGet d "_id") := by
  refine ⟨?_, ?_, ?_⟩
  · intro db p1 p2 hdef hp1 hp2
    have hgen : ∀ (db0 : DB) (p : Doc), objHasKey p "_id" = false →
        objGet (createDoc m db0 p).2 "_id" = .str (uuid db0.nextId) := by
      intro db0 p hp
      show objGet (spread (spread (spread [("_id", .str (uuid db0.nextId))]
        m.defaults) p) _) "_id" = _
      rw [objGet_spread_notin _ _ _ (by simp [objHasKey_cons, objHasKey_nil])]
      rw [objGet_spread_notin _ _ _ hp]
      rw [objGet_spread_notin _ _ _ hdef]
      rw [objGet_cons, if_pos rfl]
    have h1 := hgen db p1 hp1
    have h2 : objGet (createDoc m (createDoc m db p1).1 p2).2 "_id"
        = .str (uuid (db.nextId + 1)) := hgen (createDoc m db p1).1 p2 hp2
    refine ⟨h1, h2, ?_⟩
    rw [h1, h2]
    intro hcontra
    simp only [Value.str.injEq] at hcontra
    have := uuid_injective hcontra
    omega
  · intro db db' filter update hcanon hset hsucc
    unfold updateMany at hsucc
    rcases hfm : filterMatches regexTest filter (scanAll db m) with _ | targets
    · rw [hfm] at hsucc; cases hsucc
    · rw [hfm] at hsucc
      simp only [Option.some.injEq] at hsucc
      subst hsucc
      apply foldl_putItem_map_id m update db.clock hset targets db.items hcanon
      intro row hrow
      have hrowmem : row ∈ db.items :=
        mem_scanAll db m row
          (filterMatches_mem regexTest filter (scanAll db m) targets hfm row hrow).1
      rcases hcanon row hrowmem with ⟨⟨s, hs⟩, _, _⟩
      exact ⟨s, hs, by rw [← hs]; exact List.mem_map_of_mem _ hrowmem⟩
  · intro db m2 d
    rw [mkItem_get _ _ _ (by decide) (by decide) (by decide)]
    rw [objGet_objSet, if_neg (by decide)]

/-- Witness for `c6_id_management` on a concrete store and update. -/
theorem c6_witness :
    (objHasKey sampleModel.defaults "_id" = false ∧
      objHasKey ([("a", Value.num 1)] : Doc) "_id" = false ∧
      objHasKey ([] : Doc) "_id" = false) ∧
    (objGet (createDoc sampleModel emptyDB [("a", Value.num 1)]).2 "_id"
        = .str (uuid emptyDB.nextId) ∧
      objGet (createDoc sampleModel
          (createDoc sampleModel emptyDB [("a", Value.num 1)]).1 []).2 "_id"
        = .str (uuid (emptyDB.nextId + 1)) ∧
      objGet (createDoc sampleModel emptyDB [("a", Value.num 1)]).2 "_id"
        ≠ objGet (createDoc sampleModel
            (createDoc sampleModel emptyDB [("a", Value.num 1)]).1 []).2 "_id") ∧
    (CanonItems sampleModel (createDoc sampleModel emptyDB [("a", Value.num 1)]).1.items) ∧
    (∀ db', updateMany noRegex (createDoc sampleModel emptyDB [("a", Value.num 1)]).1
        sampleModel [] [("$set", .obj [("a", Value.num 2)])] = some db' →
      db'.items.map (fun it => objGet it "_id") =
        (createDoc sampleModel emptyDB [("a", Value.num 1)]).1.items.map
          (fun it => objGet it "_id")) := by
  have hcanon : CanonItems sampleModel
      (createDoc sampleModel emptyDB [("a", Value.num 1)]).1.items := by
    intro it hit
    have : it = mkItem sampleModel (createDoc sampleModel emptyDB [("a", Value.num 1)]).2 := by
      rcases List.mem_singleton.mp hit with h
      exact h
    rw [this]
    exact ⟨⟨uuid 0, rfl⟩, rfl, rfl⟩
  refine ⟨⟨rfl, rfl, rfl⟩, ?_, hcanon, ?_⟩
  · exact (c6_id_management noRegex sampleModel).1 emptyDB [("a", Value.num 1)] []
      rfl rfl rfl
  · intro db' hdb
    exact (c6_id_management noRegex sampleModel).2.1 _ db' [] _ hcanon
      (by intro e he; rcases List.mem_singleton.mp he with h; rw [h]; decide) hdb

/-! ## C2 — upsert idempotence -/

/-- Is the value a plain object (an operator object in filter position)? -/
def Value.isObj : Value → Bool
  | .obj _ => true
  | _ => false

theorem strictEq_eq_str {v : Value} {x : String}
    (h : v.strictEq (.str x) = true) : v = .str x := by
  cases v <;> simp_all [Value.strictEq]

/-- Spreading key-disjoint objects is concatenation. -/
theorem spread_disjoint (a b : Doc) (hbnd : (objKeys b).Nodup)
    (h : ∀ e ∈ b, objHasKey a e.1 = false) : spread a b = a ++ b := by
  induction b generalizing a with
  | nil => simp [spread]
  | cons e rest ih =>
    simp only [objKeys, List.map_cons, List.nodup_cons] at hbnd
    show spread (objSet a e.1 e.2) rest = _
    rw [ih (objSet a e.1 e.2) hbnd.2 ?_]
    · rw [objSet_of_not_hasKey a e.1 e.2 (h e (List.mem_cons_self e rest))]
      simp
    · intro x hx
      rw [objHasKey_objSet]
      have h1 : objHasKey a x.1 = false := h x (List.mem_cons_of_mem e hx)
      have h2 : x.1 ≠ e.1 := by
        intro hcontra
        exact hbnd.1 (hcontra ▸ List.mem_map_of_mem Prod.fst hx)
      simp [h1, h2]

/-- A single plain segment resolves `getValue` to a direct member read. -/
theorem getValue_plain (d : Doc) (k : String)
    (h : splitPath (toPath k) = [k]) : getValue d k = objGet d k := by
  unfold getValue
  rw [h]
  rfl

/-- A document agreeing literally with an equality-only filter matches
it. -/
theorem matchesFilter_self (regexTest : Value → Value → String → Option Bool)
    (d : Doc) (filter : Doc)
    (h : ∀ e ∈ filter, e.2.isObj = false ∧ getValue d e.1 = e.2) :
    matchesFilter regexTest d filter = some true := by
  induction filter with
  | nil => rfl
  | cons e rest ih =>
    rcases e with ⟨k, v⟩
    obtain ⟨hobj, hget⟩ := h (k, v) (List.mem_cons_self _ rest)
    have he : evalFilterEntry regexTest d (k, v) =
        some ((getValue d k).toJsString == v.toJsString) := by
      cases v with
      | obj f => simp [Value.isObj] at hobj
      | undef => rfl
      | null => rfl
      | nan => rfl
      | bool b => rfl
      | num n => rfl
      | str s => rfl
      | arr l => rfl
    simp only [matchesFilter, he, hget, beq_self_eq_true]
    exact ih (fun x hx => h x (List.mem_cons_of_mem _ hx))

/-- When neither defaults nor payload supply `_id`, `create` assigns the
generated id. -/
theorem createDoc_id (m : Model) (db : DB) (payload : Doc)
    (hdef : objHasKey m.defaults "_id" = false)
    (hp : objHasKey payload "_id" = false) :
    objGet (createDoc m db payload).2 "_id" = .str (uuid db.nextId) := by
  show objGet (spread (spread (spread [("_id", .str (uuid db.nextId))]
    m.defaults) payload) _) "_id" = _
  rw [objGet_spread_notin _ _ _ (by simp [objHasKey_cons, objHasKey_nil])]
  rw [objGet_spread_notin _ _ _ hp]
  rw [objGet_spread_notin _ _ _ hdef]
  rw [objGet_cons, if_pos rfl]

set_option maxHeartbeats 2000000 in
/-- C2, amended: starting from a store with no match for an equality-only
filter on plain non-engine keys, with an update that neither overrides a
filter key nor supplies `_id`, calling
`findOneAndUpdate(filter, update, \x7bupsert: true\x7d)` twice leaves
exactly one document matching the filter and exactly one new document in
the store. -/
theorem c2_upsert_idempotent (regexTest : Value → Value → String → Option Bool)
    (registry : List Model) (db : DB) (m : Model) (filter update : Doc)
    (hfm0 : filterMatches regexTest filter (scanAll db m) = some [])
    (hplain : ∀ e ∈ filter, splitPath (toPath e.1) = [e.1])
    (hlit : ∀ e ∈ filter, e.2.isObj = false)
    (hfkeys : ∀ e ∈ filter, objHasKey update e.1 = false ∧
      e.1 ∉ engineKeys ∧ e.1 ≠ "_id")
    (hfnd : (objKeys filter).Nodup) (hund : (objKeys update).Nodup)
    (hupd : objHasKey update "_id" = false)
    (hdef : objHasKey m.defaults "_id" = false)
    (hfresh : ∀ it ∈ db.items,
      objGet it "pk" ≠ .str (pkOf m.name (.str (uuid db.nextId)))) :
    ∃ db1 db2,
      findOneAndUpdate regexTest registry db m filter update true = some db1 ∧
      findOneAndUpdate regexTest registry db1 m filter update true = some db2 ∧
      (filterMatches regexTest filter (scanAll db2 m)).map List.length = some 1 ∧
      db2.items.length = db.items.length + 1 := by
  have hne5 : ∀ e ∈ filter, e.1 ≠ "createdAt" ∧ e.1 ≠ "updatedAt" ∧
      e.1 ≠ "model" ∧ e.1 ≠ "pk" ∧ e.1 ≠ "sk" := by
    intro e he
    have hs := (hfkeys e he).2.1
    refine ⟨?_, ?_, ?_, ?_, ?_⟩ <;>
      exact fun hc => hs (by rw [hc]; simp [engineKeys])
  have hfid : objHasKey filter "_id" = false :=
    objHasKey_false_of_forall_ne _ _ (fun e he => (hfkeys e he).2.2)
  have hpayid : objHasKey (spread filter update) "_id" = false := by
    rw [objHasKey_spread, hfid, hupd]
    rfl
  have hpayl_eq : spread filter update = filter ++ update := by
    apply spread_disjoint filter update hund
    intro x hx
    by_contra hc
    have hx1 : objHasKey filter x.1 = true := by simpa using hc
    rcases List.any_eq_true.mp hx1 with ⟨e0, he0, he0k⟩
    simp only [beq_iff_eq] at he0k
    have hupdk := (hfkeys e0 he0).1
    rw [he0k] at hupdk
    have : objHasKey update x.1 = true :=
      List.any_eq_true.mpr ⟨x, hx, by simp⟩
    rw [this] at hupdk
    cases hupdk
  have hpay_nodup : (objKeys (spread filter update)).Nodup := by
    rw [hpayl_eq]
    show (List.map Prod.fst (filter ++ update)).Nodup
    rw [List.map_append, List.nodup_append]
    refine ⟨hfnd, hund, ?_⟩
    intro k hk hk2
    rcases List.mem_map.mp hk with ⟨e0, he0, he0k⟩
    rcases List.mem_map.mp hk2 with ⟨x, hx, hxk⟩
    have hupdk := (hfkeys e0 he0).1
    rw [he0k] at hupdk
    have : objHasKey update k = true :=
      List.any_eq_true.mpr ⟨x, hx, by simp [hxk]⟩
    rw [this] at hupdk
    cases hupdk
  -- the first call creates item1
  have hdoc1_id : objGet (createDoc m db (spread filter update)).2 "_id"
      = .str (uuid db.nextId) := createDoc_id m db _ hdef hpayid
  have hfo1 : execFindOne regexTest registry db m filter {} = some none := by
    unfold execFindOne
    rw [hfm0]
    rfl
  have hcall1 : findOneAndUpdate regexTest registry db m filter update true =
      some (createDoc m db (spread filter update)).1 := by
    unfold findOneAndUpdate
    rw [hfo1]
    rfl
  have hpk1 : objGet (mkItem m (createDoc m db (spread filter update)).2) "pk"
      = .str (pkOf m.name (.str (uuid db.nextId))) := by
    rw [mkItem_pk, hdoc1_id]
  have hsk1 : objGet (mkItem m (createDoc m db (spread filter update)).2) "sk"
      = .str (pkOf m.name (.str (uuid db.nextId))) := by
    rw [mkItem_sk, hdoc1_id]
  have hkeyfalse : ∀ it ∈ db.items,
      keyEq it (.str (pkOf m.name (.str (uuid db.nextId))))
        (.str (pkOf m.name (.str (uuid db.nextId)))) = false := by
    intro it hit
    rw [Bool.eq_false_iff]
    intro hk
    simp only [keyEq, Bool.and_eq_true] at hk
    exact hfresh it hit (strictEq_eq_str hk.1)
  have hany1 : (db.items.any fun it =>
      keyEq it (.str (pkOf m.name (.str (uuid db.nextId))))
        (.str (pkOf m.name (.str (uuid db.nextId))))) = false := by
    rw [List.any_eq_false]
    intro it hit
    simp [hkeyfalse it hit]
  have hitems1 : (createDoc m db (spread filter update)).1.items =
      db.items ++ [mkItem m (createDoc m db (spread filter update)).2] := by
    show dynamoPut db.items (mkItem m (createDoc m db (spread filter update)).2) = _
    unfold dynamoPut
    rw [hpk1, hsk1]
    rw [if_neg (by simp [hany1])]
  -- values of item1 at the filter's keys
  have hitem1_vals : ∀ e ∈ filter,
      objGet (mkItem m (createDoc m db (spread filter update)).2) e.1 = e.2 := by
    intro e he
    obtain ⟨h1, h2, h3, h4, h5⟩ := hne5 e he
    rw [mkItem_get _ _ _ h3 h4 h5]
    show objGet (spread _ [("createdAt", Value.num db.clock),
      ("updatedAt", Value.num db.clock)]) e.1 = e.2
    rw [objGet_spread_notin _ _ _
      (by simp [objHasKey_cons, objHasKey_nil, Ne.symm h1, Ne.symm h2])]
    rw [objGet_spread _ _ _ hpay_nodup]
    have hhk : objHasKey (spread filter update) e.1 = true := by
      rw [hpayl_eq]
      show ((filter ++ update).any fun x => x.1 == e.1) = true
      rw [List.any_append]
      have : objHasKey filter e.1 = true :=
        List.any_eq_true.mpr ⟨e, he, by simp⟩
      simp only [objHasKey] at this
      rw [this]
      rfl
    rw [if_pos hhk, hpayl_eq]
    rw [objGet_append]
    have : objHasKey filter e.1 = true :=
      List.any_eq_true.mpr ⟨e, he, by simp⟩
    rw [if_pos this]
    exact objGet_of_mem filter e.1 e.2 he hfnd
  have hmatch1 : matchesFilter regexTest
      (mkItem m (createDoc m db (spread filter update)).2) filter = some true := by
    apply matchesFilter_self
    intro e he
    exact ⟨hlit e he, by rw [getValue_plain _ _ (hplain e he)]; exact hitem1_vals e he⟩
  have hscan1 : scanAll (createDoc m db (spread filter update)).1 m =
      scanAll db m ++ [mkItem m (createDoc m db (spread filter update)).2] := by
    unfold scanAll
    rw [hitems1, List.filter_append]
    congr 1
    simp [mkItem_model, Value.strictEq]
  have hfm1 : filterMatches regexTest filter
      (scanAll (createDoc m db (spread filter update)).1 m) =
      some [mkItem m (createDoc m db (spread filter update)).2] := by
    rw [hscan1, filterMatches_append, hfm0]
    simp [filterMatches, hmatch1]
  -- the second call finds item1 and saves it back in place
  have hfo2 : execFindOne regexTest registry (createDoc m db (spread filter update)).1
      m filter {} = some (some (mkItem m (createDoc m db (spread filter update)).2)) := by
    unfold execFindOne
    rw [hfm1]
    rfl
  have hcall2 : findOneAndUpdate regexTest registry
      (createDoc m db (spread filter update)).1 m filter update true =
      some (saveDoc (createDoc m db (spread filter update)).1 m
        (spread (mkItem m (createDoc m db (spread filter update)).2) update)) := by
    unfold findOneAndUpdate
    rw [hfo2]
  -- the saved item
  have hd2_id : objGet (objSet (spread (mkItem m (createDoc m db (spread filter update)).2)
      update) "updatedAt" (.num (createDoc m db (spread filter update)).1.clock)) "_id"
      = .str (uuid db.nextId) := by
    rw [objGet_objSet, if_neg (by decide)]
    rw [objGet_spread_notin _ _ _ hupd]
    rw [mkItem_get _ _ _ (by decide) (by decide) (by decide)]
    exact hdoc1_id
  have hpk2 : objGet (mkItem m (objSet (spread (mkItem m
      (createDoc m db (spread filter update)).2) update) "updatedAt"
      (.num (createDoc m db (spread filter update)).1.clock))) "pk"
      = .str (pkOf m.name (.str (uuid db.nextId))) := by
    rw [mkItem_pk, hd2_id]
  have hsk2 : objGet (mkItem m (objSet (spread (mkItem m
      (createDoc m db (spread filter update)).2) update) "updatedAt"
      (.num (createDoc m db (spread filter update)).1.clock))) "sk"
      = .str (pkOf m.name (.str (uuid db.nextId))) := by
    rw [mkItem_sk, hd2_id]
  have hkey1 : keyEq (mkItem m (createDoc m db (spread filter update)).2)
      (.str (pkOf m.name (.str (uuid db.nextId))))
      (.str (pkOf m.name (.str (uuid db.nextId)))) = true := by
    simp [keyEq, hpk1, hsk1, Value.strictEq]
  have hitems2 : (saveDoc (createDoc m db (spread filter update)).1 m
      (spread (mkItem m (createDoc m db (spread filter update)).2) update)).items =
      db.items ++ [mkItem m (objSet (spread (mkItem m
        (createDoc m db (spread filter update)).2) update) "updatedAt"
        (.num (createDoc m db (spread filter update)).1.clock))] := by
    show dynamoPut (createDoc m db (spread filter update)).1.items _ = _
    unfold dynamoPut
    rw [hpk2, hsk2, hitems1]
    have hany2 : ((db.items ++ [mkItem m (createDoc m db (spread filter update)).2]).any
        fun it => keyEq it (.str (pkOf m.name (.str (uuid db.nextId))))
          (.str (pkOf m.name (.str (uuid db.nextId))))) = true := by
      rw [List.any_append]
      apply Bool.or_eq_true_iff.mpr
      right
      simp [hkey1]
    rw [if_pos hany2]
    rw [List.map_append]
    congr 1
    · conv_rhs => rw [← List.map_id db.items]
      apply List.map_congr_left
      intro it hit
      rw [if_neg (by simp [hkeyfalse it hit])]
      rfl
    · simp [hkey1]
  have hitem2_vals : ∀ e ∈ filter,
      objGet (mkItem m (objSet (spread (mkItem m
        (createDoc m db (spread filter update)).2) update) "updatedAt"
        (.num (createDoc m db (spread filter update)).1.clock))) e.1 = e.2 := by
    intro e he
    obtain ⟨h1, h2, h3, h4, h5⟩ := hne5 e he
    rw [mkItem_get _ _ _ h3 h4 h5]
    rw [objGet_objSet, if_neg h2]
    rw [objGet_spread_notin _ _ _ (hfkeys e he).1]
    exact hitem1_vals e he
  have hmatch2 : matchesFilter regexTest (mkItem m (objSet (spread (mkItem m
      (createDoc m db (spread filter update)).2) update) "updatedAt"
      (.num (createDoc m db (spread filter update)).1.clock))) filter = some true := by
    apply matchesFilter_self
    intro e he
    exact ⟨hlit e he, by rw [getValue_plain _ _ (hplain e he)]; exact hitem2_vals e he⟩
  have hscan2 : scanAll (saveDoc (createDoc m db (spread filter update)).1 m
      (spread (mkItem m (createDoc m db (spread filter update)).2) update)) m =
      scanAll db m ++ [mkItem m (objSet (spread (mkItem m
        (createDoc m db (spread filter update)).2) update) "updatedAt"
        (.num (createDoc m db (spread filter update)).1.clock))] := by
    unfold scanAll
    rw [hitems2, List.filter_append]
    congr 1
    simp [mkItem_model, Value.strictEq]
  refine ⟨(createDoc m db (spread filter update)).1,
    saveDoc (createDoc m db (spread filter update)).1 m
      (spread (mkItem m (createDoc m db (spread filter update)).2) update),
    hcall1, hcall2, ?_, ?_⟩
  · rw [hscan2, filterMatches_append, hfm0]
    simp [filterMatches, hmatch2]
  · rw [hitems2]
    simp

/-- C2, counterexample to the claim as stated: with filter `\x7ba: 1\x7d` and
patch `\x7ba: 2\x7d`, two successive upserts each miss (the created document
has `a = 2`, which does not match `a = 1` under String comparison), so the
store ends with two new documents and zero matching the filter — not exactly
one. -/
theorem c2_counterexample :
    ∃ db1 db2,
      findOneAndUpdate noRegex [] emptyDB sampleModel
          [("a", Value.num 1)] [("a", Value.num 2)] true = some db1 ∧
      findOneAndUpdate noRegex [] db1 sampleModel
          [("a", Value.num 1)] [("a", Value.num 2)] true = some db2 ∧
      db2.items.length = 2 ∧
      filterMatches noRegex [("a", Value.num 1)] (scanAll db2 sampleModel)
        = some [] := by
  refine ⟨_, _, rfl, rfl, ?_, ?_⟩ <;> rfl

/-- Witness for C2: filter `\x7ba: 1\x7d`, update `\x7bb: 2\x7d` from the
empty store satisfy every hypothesis, and the double upsert leaves one
matching document and one new item. -/
theorem c2_witness :
    ∃ db1 db2,
      findOneAndUpdate noRegex [] emptyDB sampleModel
          [("a", Value.num 1)] [("b", Value.num 2)] true = some db1 ∧
      findOneAndUpdate noRegex [] db1 sampleModel
          [("a", Value.num 1)] [("b", Value.num 2)] true = some db2 ∧
      (filterMatches noRegex [("a", Value.num 1)]
          (scanAll db2 sampleModel)).map List.length = some 1 ∧
      db2.items.length = emptyDB.items.length + 1 :=
  c2_upsert_idempotent noRegex [] emptyDB sampleModel
    [("a", Value.num 1)] [("b", Value.num 2)]
    rfl
    (fun e he => by rcases List.mem_singleton.mp he with rfl; rfl)
    (fun e he => by rcases List.mem_singleton.mp he with rfl; rfl)
    (fun e he => by
      rcases List.mem_singleton.mp he with rfl
      exact ⟨rfl, by decide, by decide⟩)
    (by decide)
    (by decide)
    rfl rfl
    (fun it hit => absurd hit (List.not_mem_nil it))

/-! ## C3 — sort and limit -/

/-- Inserting into the accumulator adds exactly the inserted element. -/
theorem mem_insertCmp (cmp : Doc → Doc → Int) (x : Doc) :
    ∀ (acc : List Doc) (y : Doc), y ∈ insertCmp cmp x acc ↔ y = x ∨ y ∈ acc := by
  intro acc
  induction acc with
  | nil => intro y; simp [insertCmp]
  | cons a as ih =>
    intro y
    by_cases h : cmp x a < 0
    · rw [insertCmp, if_pos h]
      simp only [List.mem_cons]
    · rw [insertCmp, if_neg h]
      simp only [List.mem_cons, ih y]
      tauto

/-- Insertion permutes cons. -/
theorem insertCmp_perm (cmp : Doc → Doc → Int) (x : Doc) :
    ∀ acc : List Doc, (insertCmp cmp x acc).Perm (x :: acc) := by
  intro acc
  induction acc with
  | nil => exact List.Perm.refl _
  | cons a as ih =>
    by_cases h : cmp x a < 0
    · rw [insertCmp, if_pos h]
    · rw [insertCmp, if_neg h]
      exact (ih.cons a).trans (List.Perm.swap x a as)

/-- The insertion-sort fold permutes the accumulator plus the input. -/
theorem sortByCmp_perm_aux (cmp : Doc → Doc → Int) :
    ∀ l acc : List Doc,
      (l.foldl (fun acc x => insertCmp cmp x acc) acc).Perm (acc ++ l) := by
  intro l
  induction l with
  | nil => intro acc; simp
  | cons x xs ih =>
    intro acc
    simp only [List.foldl_cons]
    have h2 : (insertCmp cmp x acc ++ xs).Perm ((x :: acc) ++ xs) :=
      List.Perm.append_right xs (insertCmp_perm cmp x acc)
    have h3 : ((x :: acc) ++ xs).Perm (acc ++ x :: xs) := by
      simpa using (@List.perm_middle _ x acc xs).symm
    exact ((ih (insertCmp cmp x acc)).trans h2).trans h3

/-- `array.sort(cmp)` returns a permutation of the array. -/
theorem sortByCmp_perm (cmp : Doc → Doc → Int) (l : List Doc) :
    (sortByCmp cmp l).Perm l := by
  simpa using sortByCmp_perm_aux cmp l []

/-- Insertion only consults comparisons against current elements. -/
theorem insertCmp_congr (cmp cmp2 : Doc → Doc → Int) (x : Doc) :
    ∀ acc : List Doc, (∀ y ∈ acc, cmp x y = cmp2 x y) →
      insertCmp cmp x acc = insertCmp cmp2 x acc := by
  intro acc
  induction acc with
  | nil => intro _; rfl
  | cons a as ih =>
    intro h
    have ha : cmp x a = cmp2 x a := h a (List.mem_cons_self a as)
    simp only [insertCmp]
    rw [ha, ih (fun y hy => h y (List.mem_cons_of_mem a hy))]

/-- The sort fold only consults comparisons between input elements. -/
theorem sortByCmp_congr_aux (cmp cmp2 : Doc → Doc → Int) (S : Doc → Prop)
    (hS : ∀ a b, S a → S b → cmp a b = cmp2 a b) :
    ∀ l acc : List Doc, (∀ a ∈ l, S a) → (∀ a ∈ acc, S a) →
      l.foldl (fun acc x => insertCmp cmp x acc) acc =
        l.foldl (fun acc x => insertCmp cmp2 x acc) acc := by
  intro l
  induction l with
  | nil => intro acc _ _; rfl
  | cons x xs ih =>
    intro acc hl hacc
    have hx : S x := hl x (List.mem_cons_self x xs)
    have hstep : insertCmp cmp x acc = insertCmp cmp2 x acc :=
      insertCmp_congr cmp cmp2 x acc (fun y hy => hS x y hx (hacc y hy))
    simp only [List.foldl_cons]
    rw [hstep]
    exact ih (insertCmp cmp2 x acc)
      (fun a ha => hl a (List.mem_cons_of_mem x ha))
      (fun a ha => by
        rcases (mem_insertCmp cmp2 x acc a).mp ha with rfl | ha2
        · exact hx
        · exact hacc a ha2)

/-- Two comparators agreeing on the input sort it identically. -/
theorem sortByCmp_congr (cmp cmp2 : Doc → Doc → Int) (l : List Doc)
    (h : ∀ a ∈ l, ∀ b ∈ l, cmp a b = cmp2 a b) :
    sortByCmp cmp l = sortByCmp cmp2 l :=
  sortByCmp_congr_aux cmp cmp2 (· ∈ l) (fun a b ha hb => h a ha b hb) l []
    (fun _ ha => ha) (fun a ha => absurd ha (List.not_mem_nil a))

/-- Insertion preserves sortedness for a key-reflecting comparator. -/
theorem insertCmp_pairwise (cmp : Doc → Doc → Int) (key : Doc → Int)
    (hkey : ∀ a b, cmp a b < 0 ↔ key a < key b) (x : Doc) :
    ∀ acc : List Doc, acc.Pairwise (fun a b => key a ≤ key b) →
      (insertCmp cmp x acc).Pairwise (fun a b => key a ≤ key b) := by
  intro acc
  induction acc with
  | nil => intro _; simp [insertCmp]
  | cons a as ih =>
    intro hacc
    rw [List.pairwise_cons] at hacc
    obtain ⟨ha1, ha2⟩ := hacc
    by_cases h : cmp x a < 0
    · rw [insertCmp, if_pos h, List.pairwise_cons]
      have hxa : key x < key a := (hkey x a).mp h
      refine ⟨?_, ?_⟩
      · intro y hy
        rcases List.mem_cons.mp hy with rfl | hy2
        · exact le_of_lt hxa
        · exact le_trans (le_of_lt hxa) (ha1 y hy2)
      · rw [List.pairwise_cons]
        exact ⟨ha1, ha2⟩
    · rw [insertCmp, if_neg h, List.pairwise_cons]
      have hax : ¬ key x < key a := fun hc => h ((hkey x a).mpr hc)
      refine ⟨?_, ih ha2⟩
      intro y hy
      rcases (mem_insertCmp cmp x as y).mp hy with rfl | hy2
      · omega
      · exact ha1 y hy2

/-- The sort fold preserves sortedness for a key-reflecting comparator. -/
theorem sortByCmp_pairwise_aux (cmp : Doc → Doc → Int) (key : Doc → Int)
    (hkey : ∀ a b, cmp a b < 0 ↔ key a < key b) :
    ∀ l acc : List Doc, acc.Pairwise (fun a b => key a ≤ key b) →
      (l.foldl (fun acc x => insertCmp cmp x acc) acc).Pairwise
        (fun a b => key a ≤ key b) := by
  intro l
  induction l with
  | nil => intro acc h; exact h
  | cons x xs ih =>
    intro acc hacc
    simp only [List.foldl_cons]
    exact ih _ (insertCmp_pairwise cmp key hkey x acc hacc)

/-- `array.sort(cmp)` sorts ascending by a key the comparator reflects. -/
theorem sortByCmp_pairwise (cmp : Doc → Doc → Int) (key : Doc → Int)
    (hkey : ∀ a b, cmp a b < 0 ↔ key a < key b) (l : List Doc) :
    (sortByCmp cmp l).Pairwise (fun a b => key a ≤ key b) :=
  sortByCmp_pairwise_aux cmp key hkey l [] List.Pairwise.nil

/-- The empty filter keeps every row. -/
theorem filterMatches_nil (regexTest : Value → Value → String → Option Bool)
    (rows : List Doc) : filterMatches regexTest [] rows = some rows := by
  induction rows with
  | nil => rfl
  | cons d rest ih => simp [filterMatches, matchesFilter, ih]

/-- On documents carrying a numeric `x`, `compareWithSort` with sort
`\x7bx: 1\x7d` is the numeric three-way comparison of those values. -/
theorem compareWithSort_numKey (xOf : Doc → Int) (a b : Doc)
    (ha : getValue a "x" = Value.num (xOf a))
    (hb : getValue b "x" = Value.num (xOf b)) :
    compareWithSort a b [("x", Value.num 1)] =
      (if xOf a < xOf b then (-1 : Int)
       else if xOf b < xOf a then 1 else 0) := by
  rcases lt_trichotomy (xOf a) (xOf b) with h | h | h
  · have hne : xOf a ≠ xOf b := ne_of_lt h
    have hnlt : ¬ xOf b < xOf a := by omega
    simp [compareWithSort, ha, hb, Value.strictEq, Value.jsLt, Value.jsGt,
      Value.toJsNumber, Value.isNullish, h, hne, hnlt]
  · simp [compareWithSort, ha, hb, Value.strictEq, h]
  · have hne : xOf a ≠ xOf b := ne_of_gt h
    have hnlt : ¬ xOf a < xOf b := by omega
    simp [compareWithSort, ha, hb, Value.strictEq, Value.jsLt, Value.jsGt,
      Value.toJsNumber, Value.isNullish, h, hne, hnlt]

/-- C3: over stored documents with pairwise-distinct numeric values of `x`,
resolving `find(\x7b\x7d).sort(\x7bx: 1\x7d).limit(k)` returns the take-k
prefix of an ascending-by-`x` permutation of the store — the k smallest-`x`
documents in ascending order; moreover a nullish (missing) sort value
orders after any present one regardless of the direction value, strictly
equal sort values fall through to the remaining sort keys, and the limit
slice is applied to the sorted list. -/
theorem c3_sort_limit_ordering (regexTest : Value → Value → String → Option Bool)
    (registry : List Model) (db : DB) (m : Model) (k : Nat) (xOf : Doc → Int)
    (hx : ∀ d ∈ scanAll db m, getValue d "x" = Value.num (xOf d))
    (hdist : (scanAll db m).Pairwise (fun a b => xOf a ≠ xOf b)) :
    (∃ sorted : List Doc,
      execFind regexTest registry db m [] none
          ⟨some [("x", Value.num 1)], some (k : Int), none, false⟩ =
        some (sorted.take k) ∧
      sorted.Perm (scanAll db m) ∧
      sorted.Pairwise (fun a b => xOf a < xOf b)) ∧
    (∀ (a b : Doc) (key : String) (dir : Value) (rest : Doc),
      (getValue a key).isNullish = true → (getValue b key).isNullish = false →
      compareWithSort a b ((key, dir) :: rest) = 1) ∧
    (∀ (a b : Doc) (key : String) (dir : Value) (rest : Doc),
      (getValue a key).strictEq (getValue b key) = true →
      compareWithSort a b ((key, dir) :: rest) = compareWithSort a b rest) ∧
    (∀ (s : Doc) (kk : Int) (l : List Doc),
      execList registry db m ⟨some s, some kk, none, false⟩ l =
        jsSlice0 (sortDocs s l) kk) := by
  refine ⟨?_, ?_, ?_, ?_⟩
  · refine ⟨sortByCmp
      (fun a b => if xOf a < xOf b then (-1 : Int)
        else if xOf b < xOf a then 1 else 0) (scanAll db m), ?_, ?_, ?_⟩
    · have hfm : filterMatches regexTest [] (scanAll db m) =
          some (scanAll db m) := filterMatches_nil regexTest _
      have hmap : (scanAll db m).map (fun d => applyProjection d none) =
          scanAll db m := by
        simp [applyProjection]
      have hsort : sortDocs [("x", Value.num 1)] (scanAll db m) =
          sortByCmp (fun a b => if xOf a < xOf b then (-1 : Int)
            else if xOf b < xOf a then 1 else 0) (scanAll db m) :=
        sortByCmp_congr _ _ _
          (fun a ha b hb => compareWithSort_numKey xOf a b (hx a ha) (hx b hb))
      simp only [execFind, hfm, hmap, execList, populateDocs, hsort,
        Option.some.injEq]
      simp [jsSlice0]
    · exact sortByCmp_perm _ _
    · have hkey2 : ∀ a b : Doc,
          (if xOf a < xOf b then (-1 : Int)
            else if xOf b < xOf a then 1 else 0) < 0 ↔ xOf a < xOf b := by
        intro a b
        split_ifs with h1 h2 <;> omega
      have hle := sortByCmp_pairwise _ xOf hkey2 (scanAll db m)
      have hne : (sortByCmp
          (fun a b => if xOf a < xOf b then (-1 : Int)
            else if xOf b < xOf a then 1 else 0)
          (scanAll db m)).Pairwise (fun a b => xOf a ≠ xOf b) :=
        ((sortByCmp_perm _ (scanAll db m)).pairwise_iff
          (fun hab => fun hc => hab hc.symm)).mpr hdist
      exact (hle.and hne).imp (fun hab => lt_of_le_of_ne hab.1 hab.2)
  · intro a b key dir rest h1 h2
    have hse : (getValue a key).strictEq (getValue b key) = false :=
      strictEq_false_of_nullish_left h1 h2
    simp only [compareWithSort]
    rw [if_neg (by simp [hse]), if_pos (by simp [h1])]
  · intro a b key dir rest h
    simp only [compareWithSort]
    rw [if_pos (by simp [h])]
  · intro s kk l
    rfl

/-- First sample row for the C3 witness. -/
def c3row1 : Doc := [("x", Value.num 2), ("model", Value.str "M")]

/-- Second sample row for the C3 witness. -/
def c3row2 : Doc := [("x", Value.num 0), ("model", Value.str "M")]

/-- Third sample row for the C3 witness. -/
def c3row3 : Doc := [("x", Value.num 1), ("model", Value.str "M")]

/-- A three-row store for the C3 witness. -/
def c3db : DB := ⟨[c3row1, c3row2, c3row3], 3, 3⟩

/-- The numeric key of the C3 witness rows. -/
def c3xOf : Doc → Int := fun d =>
  match objGet d "x" with
  | Value.num n => n
  | _ => 0

/-- Witness for C3: three rows with x-values 2, 0, 1 and k = 2 satisfy both
hypotheses (numeric and pairwise-distinct x), so the theorem applies. -/
theorem c3_witness :
    (∃ sorted : List Doc,
      execFind noRegex [] c3db sampleModel [] none
          ⟨some [("x", Value.num 1)], some ((2 : Nat) : Int), none, false⟩ =
        some (sorted.take 2) ∧
      sorted.Perm (scanAll c3db sampleModel) ∧
      sorted.Pairwise (fun a b => c3xOf a < c3xOf b)) ∧
    (∀ (a b : Doc) (key : String) (dir : Value) (rest : Doc),
      (getValue a key).isNullish = true → (getValue b key).isNullish = false →
      compareWithSort a b ((key, dir) :: rest) = 1) ∧
    (∀ (a b : Doc) (key : String) (dir : Value) (rest : Doc),
      (getValue a key).strictEq (getValue b key) = true →
      compareWithSort a b ((key, dir) :: rest) = compareWithSort a b rest) ∧
    (∀ (s : Doc) (kk : Int) (l : List Doc),
      execList [] c3db sampleModel ⟨some s, some kk, none, false⟩ l =
        jsSlice0 (sortDocs s l) kk) :=
  c3_sort_limit_ordering noRegex [] c3db sampleModel 2 c3xOf
    (by
      intro d hd
      rw [(rfl :
        scanAll c3db sampleModel = [c3row1, c3row2, c3row3])] at hd
      rcases List.mem_cons.mp hd with rfl | hd
      · rfl
      rcases List.mem_cons.mp hd with rfl | hd
      · rfl
      rcases List.mem_cons.mp hd with rfl | hd
      · rfl
      exact absurd hd (List.not_mem_nil d))
    (by
      rw [(rfl :
        scanAll c3db sampleModel = [c3row1, c3row2, c3row3])]
      decide)

/-! ## C4 — populate and missing targets -/

/-- Comment-like model with a populate mapping, for C4. -/
def c4Comment : Model := ⟨"Comment", [], [("fromUserId", "User")]⟩

/-- Target model with no stored documents, for C4. -/
def c4User : Model := ⟨"User", [], []⟩

/-- Store holding one comment whose `fromUserId` points at a user that does
not exist. -/
def c4db : DB := ⟨[mkItem c4Comment [("_id", .str "c1"), ("fromUserId", .str "u9")]], 5, 5⟩

/-- C4, counterexample to the claim as stated: resolving a populated find
over a row whose foreign key `"u9"` has no target replaces the field with
`null` — the original foreign-key value is not kept. -/
theorem c4_counterexample :
    findByIdLean c4db c4User (Value.str "u9") = none ∧
    (execFind noRegex [c4Comment, c4User] c4db c4Comment [] none
        { populateField := some "fromUserId" }).map
      (fun l => l.map (fun d => objGet d "fromUserId")) = some [Value.null] ∧
    Value.null ≠ Value.str "u9" :=
  ⟨rfl, rfl, fun h => Value.noConfusion h⟩

/-- C4, amended: with a mapped populate field and a registered target
model, each result row with a falsy foreign key passes through unchanged,
a row whose truthy foreign key loads a target gets the field replaced by
the target document, and a row whose truthy foreign key finds no target
gets the field set to `null` (all other fields untouched). -/
theorem c4_populate_missing_target (registry : List Model) (db : DB)
    (m : Model) (f target : String) (tm : Model) (docs : List Doc)
    (hmap : m.populates.find? (fun e => e.1 == f) = some (f, target))
    (hreg : getModel registry target = some tm) :
    ∃ rowFn : Doc → Doc,
      populateDocs registry db m (some f) docs = docs.map rowFn ∧
      (∀ d : Doc, (objGet d f).truthy = false → rowFn d = d) ∧
      (∀ d : Doc, (objGet d f).truthy = true →
        findByIdLean db tm (objGet d f) = none →
          objGet (rowFn d) f = .null ∧
          ∀ k, k ≠ f → objGet (rowFn d) k = objGet d k) ∧
      (∀ (d : Doc) (t : Doc), (objGet d f).truthy = true →
        findByIdLean db tm (objGet d f) = some t →
          objGet (rowFn d) f = .obj t ∧
          ∀ k, k ≠ f → objGet (rowFn d) k = objGet d k) := by
  refine ⟨fun d =>
    if !(objGet d f).truthy then d
    else
      match findByIdLean db tm (objGet d f) with
      | some t => objSet d f (.obj t)
      | none => objSet d f .null, ?_, ?_, ?_, ?_⟩
  · unfold populateDocs
    simp only [hmap, hreg]
  · intro d hf
    simp [hf]
  · intro d hf hnone
    simp only [hf, Bool.not_true, Bool.false_eq_true, if_false, hnone]
    refine ⟨by rw [objGet_objSet]; simp, ?_⟩
    intro k hk
    rw [objGet_objSet]
    simp [hk]
  · intro d t hf hsome
    simp only [hf, Bool.not_true, Bool.false_eq_true, if_false, hsome]
    refine ⟨by rw [objGet_objSet]; simp, ?_⟩
    intro k hk
    rw [objGet_objSet]
    simp [hk]

/-- Witness for `c4_populate_missing_target` on the concrete store. -/
theorem c4_witness :
    c4Comment.populates.find? (fun e => e.1 == "fromUserId") =
      some ("fromUserId", "User") ∧
    getModel [c4Comment, c4User] "User" = some c4User ∧
    ∃ rowFn : Doc → Doc,
      populateDocs [c4Comment, c4User] c4db c4Comment (some "fromUserId")
          [mkItem c4Comment [("_id", .str "c1"), ("fromUserId", .str "u9")]] =
        [mkItem c4Comment [("_id", .str "c1"), ("fromUserId", .str "u9")]].map rowFn ∧
      (∀ d : Doc, (objGet d "fromUserId").truthy = false → rowFn d = d) ∧
      (∀ d : Doc, (objGet d "fromUserId").truthy = true →
        findByIdLean c4db c4User (objGet d "fromUserId") = none →
          objGet (rowFn d) "fromUserId" = .null ∧
          ∀ k, k ≠ "fromUserId" → objGet (rowFn d) k = objGet d k) ∧
      (∀ (d : Doc) (t : Doc), (objGet d "fromUserId").truthy = true →
        findByIdLean c4db c4User (objGet d "fromUserId") = some t →
          objGet (rowFn d) "fromUserId" = .obj t ∧
          ∀ k, k ≠ "fromUserId" → objGet (rowFn d) k = objGet d k) :=
  ⟨rfl, rfl,
    c4_populate_missing_target [c4Comment, c4User] c4db c4Comment
      "fromUserId" "User" c4User _ rfl rfl⟩

/-! ## C9 — group accumulation -/

/-- The serialized group key of a row under an id expression. -/
def groupKeyOf (e : Value) (r : Doc) : Option String :=
  jsonStringify (evaluateGroupIdExpression r e)

theorem groupLookup_mem (gm : GroupMap) (key : Option String) (d : Doc)
    (h : groupLookup gm key = some d) : (key, d) ∈ gm := by
  unfold groupLookup at h
  rcases hf : gm.find? (fun g => g.1 == key) with _ | g
  · rw [hf] at h; cases h
  · rw [hf] at h
    have h1 := List.find?_some hf
    have h2 := List.mem_of_find?_eq_some hf
    simp only [beq_iff_eq] at h1
    simp only [Option.some.injEq] at h
    rcases g with ⟨gk, gd⟩
    simp only at h1 h
    rw [← h1, ← h]
    exact h2

theorem groupLookup_none (gm : GroupMap) (key : Option String)
    (h : groupLookup gm key = none) : ∀ g ∈ gm, g.1 ≠ key := by
  unfold groupLookup at h
  rcases hf : gm.find? (fun g => g.1 == key) with _ | g
  · intro g hg
    have := List.find?_eq_none.mp hf g hg
    simpa using this
  · rw [hf] at h; cases h

theorem groupLookup_append_new (gm : GroupMap) (key : Option String) (d : Doc)
    (h : groupLookup gm key = none) :
    groupLookup (gm ++ [(key, d)]) key = some d := by
  unfold groupLookup at h ⊢
  rcases hf : gm.find? (fun g => g.1 == key) with _ | g
  · rw [List.find?_append, hf]
    simp [List.find?]
  · rw [hf] at h; cases h

theorem groupUpdate_map_fst (gm : GroupMap) (key : Option String) (d : Doc) :
    (groupUpdate gm key d).map Prod.fst = gm.map Prod.fst := by
  unfold groupUpdate
  rw [List.map_map]
  apply List.map_congr_left
  intro g _
  rw [Function.comp_apply]
  by_cases h : (g.1 == key) = true
  · rw [if_pos h]
  · rw [if_neg h]

theorem mem_groupUpdate (gm : GroupMap) (key : Option String) (d : Doc)
    (g' : Option String × Doc) (h : g' ∈ groupUpdate gm key d) :
    (g' ∈ gm ∧ g'.1 ≠ key) ∨ g' = (key, d) := by
  unfold groupUpdate at h
  rcases List.mem_map.mp h with ⟨g, hg, hgg⟩
  by_cases hk : g.1 == key
  · right
    rw [if_pos hk] at hgg
    simp only [beq_iff_eq] at hk
    rw [← hgg, hk]
  · left
    rw [if_neg hk] at hgg
    subst hgg
    exact ⟨hg, by simpa using hk⟩

theorem groupUpdate_of_absent (gm : GroupMap) (key : Option String) (d : Doc)
    (h : ∀ g ∈ gm, g.1 ≠ key) : groupUpdate gm key d = gm := by
  unfold groupUpdate
  conv_rhs => rw [← List.map_id gm]
  apply List.map_congr_left
  intro g hg
  rw [if_neg (by simpa using h g hg)]
  rfl

theorem groupUpdate_append_last (gm : GroupMap) (key : Option String) (b d : Doc)
    (h : ∀ g ∈ gm, g.1 ≠ key) :
    groupUpdate (gm ++ [(key, b)]) key d = gm ++ [(key, d)] := by
  unfold groupUpdate
  rw [List.map_append]
  congr 1
  · exact groupUpdate_of_absent gm key d h
  · simp

theorem addSum_undef : addSum .undef (some 1) = .num 1 := by
  simp [addSum, Value.isNullish, Value.toJsNumber]

theorem addSum_num (c : Int) : addSum (.num c) (some 1) = .num (c + 1) := by
  simp [addSum, Value.isNullish, Value.toJsNumber]

/-- The accumulator walk of a count stage (`\x7b$sum: 1\x7d`) bumps the
accumulator field and never throws. -/
theorem applyAccumRow_count (r entry : Doc) (e : Value) (fld : String)
    (hfld : fld ≠ "_id") :
    applyAccumRow r entry [("_id", e), (fld, .obj [("$sum", .num 1)])] =
      some (objSet entry fld (addSum (objGet entry fld) (some 1))) := by
  show applyAccumRow r entry _ = _
  unfold applyAccumRow
  rw [if_pos (by simp)]
  unfold applyAccumRow
  rw [if_neg (by simpa using hfld)]
  have happ : applyAccumulator r entry fld (.obj [("$sum", .num 1)]) =
      some (objSet entry fld (addSum (objGet entry fld) (some 1))) := rfl
  rw [happ]
  rfl

/-- One row of a count group stage on a key already present. -/
theorem groupStep_count_hit (gm : GroupMap) (r entry : Doc) (e : Value)
    (fld : String) (hfld : fld ≠ "_id")
    (hlook : groupLookup gm (groupKeyOf e r) = some entry) :
    groupStep [("_id", e), (fld, .obj [("$sum", .num 1)])] gm r =
      some (groupUpdate gm (groupKeyOf e r)
        (objSet entry fld (addSum (objGet entry fld) (some 1)))) := by
  have hid : objGet [("_id", e), (fld, Value.obj [("$sum", Value.num 1)])] "_id" = e := rfl
  simp only [groupStep]
  rw [hid]
  simp only [show jsonStringify (evaluateGroupIdExpression r e) = groupKeyOf e r from rfl,
    hlook, applyAccumRow_count r entry e fld hfld]

/-- One row of a count group stage on a fresh key. -/
theorem groupStep_count_miss (gm : GroupMap) (r : Doc) (e : Value)
    (fld : String) (hfld : fld ≠ "_id")
    (hlook : groupLookup gm (groupKeyOf e r) = none) :
    groupStep [("_id", e), (fld, .obj [("$sum", .num 1)])] gm r =
      some (gm ++ [(groupKeyOf e r,
        [("_id", evaluateGroupIdExpression r e), (fld, .num 1)])]) := by
  have hid : objGet [("_id", e), (fld, Value.obj [("$sum", Value.num 1)])] "_id" = e := rfl
  have hbase : objGet [("_id", evaluateGroupIdExpression r e)] fld = .undef := by
    rw [objGet_cons]
    simp [Ne.symm hfld, objGet_nil]
  simp only [groupStep]
  rw [hid]
  simp only [show jsonStringify (evaluateGroupIdExpression r e) = groupKeyOf e r from rfl,
    hlook]
  simp only [groupLookup_append_new gm (groupKeyOf e r) _ hlook]
  simp only [applyAccumRow_count r _ e fld hfld]
  rw [hbase, addSum_undef]
  rw [objSet_of_not_hasKey _ _ _ (by simp [objHasKey_cons, objHasKey_nil, Ne.symm hfld])]
  rw [groupUpdate_append_last gm (groupKeyOf e r) _ _ (groupLookup_none gm _ hlook)]
  rfl

/-- Invariant of the count-group fold: keys are distinct, every group entry
serializes its own `_id` to its map key, stems from some processed row and
counts the processed rows of its key, and every processed row has a
group. -/
def countGroupInv (e : Value) (fld : String) (pref : List Doc) (gm : GroupMap) : Prop :=
  (gm.map Prod.fst).Nodup ∧
  (∀ g ∈ gm, jsonStringify (objGet g.2 "_id") = g.1 ∧
    (∃ r ∈ pref, groupKeyOf e r = g.1) ∧
    objGet g.2 fld = .num (pref.countP (fun r => groupKeyOf e r == g.1))) ∧
  (∀ r ∈ pref, ∃ g ∈ gm, g.1 = groupKeyOf e r)

theorem countGroupInv_step (e : Value) (fld : String) (hfld : fld ≠ "_id")
    (pref : List Doc) (gm : GroupMap) (r : Doc)
    (hinv : countGroupInv e fld pref gm) :
    ∃ gm', groupStep [("_id", e), (fld, .obj [("$sum", .num 1)])] gm r = some gm' ∧
      countGroupInv e fld (pref ++ [r]) gm' := by
  obtain ⟨hnd, hmem, hcov⟩ := hinv
  rcases hlook : groupLookup gm (groupKeyOf e r) with _ | entry
  · -- fresh key: a new group entry is appended
    have hfresh := groupLookup_none gm _ hlook
    refine ⟨_, groupStep_count_miss gm r e fld hfld hlook, ?_, ?_, ?_⟩
    · rw [List.map_append]
      rw [List.nodup_append]
      refine ⟨hnd, by simp, ?_⟩
      intro k hk hk2
      simp only [List.map_cons, List.map_nil, List.mem_singleton] at hk2
      rcases List.mem_map.mp hk with ⟨g, hg, hgk⟩
      exact hfresh g hg (hgk.trans hk2)
    · intro g hg
      rcases List.mem_append.mp hg with hold | hnew
      · obtain ⟨hser, ⟨r0, hr0, hk0⟩, hcnt⟩ := hmem g hold
        refine ⟨hser, ⟨r0, List.mem_append_left _ hr0, hk0⟩, ?_⟩
        rw [List.countP_append, List.countP_cons, List.countP_nil]
        have hne : (groupKeyOf e r == g.1) = false := by
          rw [beq_eq_false_iff_ne]
          intro hcontra
          exact hfresh g hold hcontra.symm
        rw [hne]
        simpa using hcnt
      · simp only [List.mem_singleton] at hnew
        subst hnew
        refine ⟨?_, ⟨r, List.mem_append_right _ (by simp), rfl⟩, ?_⟩
        · show jsonStringify (objGet [("_id", evaluateGroupIdExpression r e), (fld, .num 1)] "_id") = _
          rw [objGet_cons, if_pos rfl]
          rfl
        · show objGet [("_id", evaluateGroupIdExpression r e), (fld, .num 1)] fld = _
          rw [objGet_cons, if_neg (Ne.symm hfld), objGet_cons, if_pos rfl]
          have hzero : pref.countP (fun r0 => groupKeyOf e r0 == groupKeyOf e r) = 0 := by
            rw [List.countP_eq_zero]
            intro r0 hr0
            simp only [beq_iff_eq]
            intro hcontra
            rcases hcov r0 hr0 with ⟨g0, hg0, hg0k⟩
            exact hfresh g0 hg0 (hg0k.trans hcontra)
          rw [List.countP_append, List.countP_cons, List.countP_nil, hzero]
          simp
    · intro r' hr'
      rcases List.mem_append.mp hr' with hold | hnew
      · rcases hcov r' hold with ⟨g0, hg0, hg0k⟩
        exact ⟨g0, List.mem_append_left _ hg0, hg0k⟩
      · simp only [List.mem_singleton] at hnew
        refine ⟨(groupKeyOf e r, [("_id", evaluateGroupIdExpression r e), (fld, .num 1)]),
          List.mem_append_right _ (by simp), ?_⟩
        rw [hnew]
  · -- existing key: the entry's accumulator is bumped in place
    have hentry := groupLookup_mem gm _ entry hlook
    obtain ⟨hser, ⟨r0, hr0, hk0⟩, hcnt⟩ := hmem (groupKeyOf e r, entry) hentry
    refine ⟨_, groupStep_count_hit gm r entry e fld hfld hlook, ?_, ?_, ?_⟩
    · rw [groupUpdate_map_fst]
      exact hnd
    · intro g' hg'
      rcases mem_groupUpdate _ _ _ g' hg' with ⟨hold, hne⟩ | heq
      · obtain ⟨hser2, ⟨r1, hr1, hk1⟩, hcnt2⟩ := hmem g' hold
        refine ⟨hser2, ⟨r1, List.mem_append_left _ hr1, hk1⟩, ?_⟩
        rw [List.countP_append, List.countP_cons, List.countP_nil]
        have hne2 : (groupKeyOf e r == g'.1) = false := by
          rw [beq_eq_false_iff_ne]
          exact fun hcontra => hne hcontra.symm
        rw [hne2]
        simpa using hcnt2
      · subst heq
        refine ⟨?_, ⟨r0, List.mem_append_left _ hr0, hk0⟩, ?_⟩
        · show jsonStringify (objGet (objSet entry fld _) "_id") = _
          rw [objGet_objSet, if_neg (Ne.symm hfld)]
          exact hser
        · show objGet (objSet entry fld _) fld = _
          rw [objGet_objSet, if_pos rfl, hcnt, addSum_num]
          rw [List.countP_append, List.countP_cons, List.countP_nil]
          rw [show (groupKeyOf e r == groupKeyOf e r) = true from beq_self_eq_true _]
          simp
    · intro r' hr'
      rcases List.mem_append.mp hr' with hold | hnew
      · rcases hcov r' hold with ⟨g0, hg0, hg0k⟩
        have hkeys : g0.1 ∈ (groupUpdate gm (groupKeyOf e r)
            (objSet entry fld (addSum (objGet entry fld) (some 1)))).map Prod.fst := by
          rw [groupUpdate_map_fst]
          exact List.mem_map_of_mem Prod.fst hg0
        rcases List.mem_map.mp hkeys with ⟨g1, hg1, hg1k⟩
        exact ⟨g1, hg1, hg1k.trans hg0k⟩
      · simp only [List.mem_singleton] at hnew
        have hkeys : (groupKeyOf e r) ∈ (groupUpdate gm (groupKeyOf e r)
            (objSet entry fld (addSum (objGet entry fld) (some 1)))).map Prod.fst := by
          rw [groupUpdate_map_fst]
          exact List.mem_map.mpr ⟨(groupKeyOf e r, entry), hentry, rfl⟩
        rcases List.mem_map.mp hkeys with ⟨g1, hg1, hg1k⟩
        refine ⟨g1, hg1, ?_⟩
        rw [hnew]
        exact hg1k

/-- The count-group fold over a row list never throws and maintains the
invariant. -/
theorem countGroupFold (e : Value) (fld : String) (hfld : fld ≠ "_id") :
    ∀ (rows : List Doc) (pref : List Doc) (gm : GroupMap),
      countGroupInv e fld pref gm →
      ∃ gm', rows.foldlM (groupStep [("_id", e), (fld, .obj [("$sum", .num 1)])]) gm
          = some gm' ∧ countGroupInv e fld (pref ++ rows) gm' := by
  intro rows
  induction rows with
  | nil =>
    intro pref gm hinv
    exact ⟨gm, rfl, by simpa using hinv⟩
  | cons r rest ih =>
    intro pref gm hinv
    rcases countGroupInv_step e fld hfld pref gm r hinv with ⟨gm1, hstep, hinv1⟩
    rcases ih (pref ++ [r]) gm1 hinv1 with ⟨gm', hfold, hinv'⟩
    refine ⟨gm', ?_, by simpa [List.append_assoc] using hinv'⟩
    rw [List.foldlM_cons, hstep]
    simpa using hfold

/-- A one-stage `$group` pipeline is the group fold's values. -/
theorem aggregateRows_single_group (regexTest : Value → Value → String → Option Bool)
    (rows : List Doc) (spec : List (String × Value)) :
    aggregateRows regexTest rows [[("$group", .obj spec)]] =
      (groupRows spec rows).map (fun gm => gm.map Prod.snd) := by
  show (aggregateStage regexTest rows [("$group", .obj spec)]) >>= _ = _
  have hstage : aggregateStage regexTest rows [("$group", .obj spec)] =
      (groupRows spec rows).map (fun gm => gm.map Prod.snd) := rfl
  rw [hstage]
  rcases groupRows spec rows with _ | gm <;> rfl

/-- C9: aggregating `[\x7bv:1\x7d,\x7bv:2\x7d,\x7bv:3\x7d]` grouped by a
constant key with `\x7btotal: \x7b$sum: "v"\x7d\x7d` yields one row with
`total = 6`; and for every id expression, a group stage whose accumulator
is `\x7b$sum: 1\x7d` produces exactly one output row per distinct
serialized group key, carrying the number of rows of that key. -/
theorem c9_group_accumulation (regexTest : Value → Value → String → Option Bool) :
    (aggregateRows regexTest [[("v", .num 1)], [("v", .num 2)], [("v", .num 3)]]
        [[("$group", .obj [("_id", .num 0), ("total", .obj [("$sum", .str "v")])])]] =
      some [[("_id", .num 0), ("total", .num 6)]]) ∧
    ∀ (e : Value) (fld : String) (rows : List Doc), fld ≠ "_id" →
      ∃ out, aggregateRows regexTest rows
          [[("$group", .obj [("_id", e), (fld, .obj [("$sum", .num 1)])])]] = some out ∧
        (out.map (fun g => jsonStringify (objGet g "_id"))).Nodup ∧
        (∀ g ∈ out, ∃ r ∈ rows, groupKeyOf e r = jsonStringify (objGet g "_id")) ∧
        (∀ r ∈ rows, ∃ g ∈ out, jsonStringify (objGet g "_id") = groupKeyOf e r) ∧
        (∀ g ∈ out, objGet g fld =
          .num (rows.countP (fun r => groupKeyOf e r == jsonStringify (objGet g "_id")))) := by
  constructor
  · rfl
  · intro e fld rows hfld
    have hinit : countGroupInv e fld [] [] := by
      refine ⟨by simp, ?_, ?_⟩
      · intro g hg; cases hg
      · intro r hr; cases hr
    rcases countGroupFold e fld hfld rows [] [] hinit with ⟨gm, hfold, hinv⟩
    simp only [List.nil_append] at hinv
    obtain ⟨hnd, hmem, hcov⟩ := hinv
    refine ⟨gm.map Prod.snd, ?_, ?_, ?_, ?_, ?_⟩
    · rw [aggregateRows_single_group]
      unfold groupRows
      rw [hfold]
      rfl
    · have hkeys : (gm.map Prod.snd).map (fun g => jsonStringify (objGet g "_id"))
          = gm.map Prod.fst := by
        rw [List.map_map]
        apply List.map_congr_left
        intro g hg
        exact (hmem g hg).1
      rw [hkeys]
      exact hnd
    · intro g hg
      rcases List.mem_map.mp hg with ⟨g0, hg0, hgg⟩
      obtain ⟨hser, ⟨r0, hr0, hk0⟩, _⟩ := hmem g0 hg0
      subst hgg
      exact ⟨r0, hr0, by rw [hser]; exact hk0⟩
    · intro r hr
      rcases hcov r hr with ⟨g0, hg0, hg0k⟩
      refine ⟨g0.2, List.mem_map_of_mem Prod.snd hg0, ?_⟩
      rw [(hmem g0 hg0).1]
      exact hg0k
    · intro g hg
      rcases List.mem_map.mp hg with ⟨g0, hg0, hgg⟩
      obtain ⟨hser, _, hcnt⟩ := hmem g0 hg0
      subst hgg
      rw [hser]
      exact hcnt

/-- Witness for `c9_group_accumulation` at a concrete grouped store. -/
theorem c9_witness :
    ("n" : String) ≠ "_id" ∧
    ∃ out, aggregateRows noRegex [[("g", .str "a")], [("g", .str "b")], [("g", .str "a")]]
        [[("$group", .obj [("_id", .str "$g"), ("n", .obj [("$sum", .num 1)])])]] = some out ∧
      (out.map (fun g => jsonStringify (objGet g "_id"))).Nodup ∧
      (∀ g ∈ out, ∃ r ∈ [[("g", Value.str "a")], [("g", Value.str "b")], [("g", Value.str "a")]],
        groupKeyOf (.str "$g") r = jsonStringify (objGet g "_id")) ∧
      (∀ r ∈ [[("g", Value.str "a")], [("g", Value.str "b")], [("g", Value.str "a")]],
        ∃ g ∈ out, jsonStringify (objGet g "_id") = groupKeyOf (.str "$g") r) ∧
      (∀ g ∈ out, objGet g "n" =
        .num (List.countP (fun r => groupKeyOf (.str "$g") r == jsonStringify (objGet g "_id"))
          [[("g", Value.str "a")], [("g", Value.str "b")], [("g", Value.str "a")]])) :=
  ⟨by decide, (c9_group_accumulation noRegex).2 (.str "$g") "n"
    [[("g", .str "a")], [("g", .str "b")], [("g", .str "a")]] (by decide)⟩

/-! ## C10 — projection -/

theorem projFold_hasKey (d p0 : Doc) (p : List (String × Value)) (acc : Doc) (k : String) :
    objHasKey (p.foldl (fun out e =>
        if (objGet p0 e.1).truthy then objSet out e.1 (objGet d e.1) else out) acc) k
      = (objHasKey acc k || p.any (fun e => e.1 == k && (objGet p0 e.1).truthy)) := by
  induction p generalizing acc with
  | nil => simp
  | cons e rest ih =>
    simp only [List.foldl_cons, List.any_cons]
    by_cases ht : (objGet p0 e.1).truthy
    · rw [if_pos ht, ih, objHasKey_objSet]
      by_cases hek : e.1 = k
      · subst hek
        cases hacc : objHasKey acc e.1 <;> simp [ht]
      · rw [show (k == e.1) = false by simp [Ne.symm hek],
          show (e.1 == k) = false by simp [hek]]
        cases hacc : objHasKey acc k <;> simp
    · rw [if_neg ht, ih]
      simp [show (objGet p0 e.1).truthy = false by simpa using ht]

theorem projFold_get (d p0 : Doc) (p : List (String × Value)) (acc : Doc) (k : String) :
    objGet (p.foldl (fun out e =>
        if (objGet p0 e.1).truthy then objSet out e.1 (objGet d e.1) else out) acc) k
      = if p.any (fun e => e.1 == k && (objGet p0 e.1).truthy) then objGet d k
        else objGet acc k := by
  induction p generalizing acc with
  | nil => simp
  | cons e rest ih =>
    simp only [List.foldl_cons, List.any_cons]
    by_cases ht : (objGet p0 e.1).truthy
    · rw [if_pos ht, ih]
      simp only [ht, Bool.and_true]
      by_cases hek : e.1 = k
      · subst hek
        simp only [beq_self_eq_true, Bool.true_or, if_true]
        by_cases hr : rest.any (fun x => x.1 == e.1 && (objGet p0 x.1).truthy)
        · rw [if_pos hr]
        · rw [if_neg hr, objGet_objSet, if_pos rfl]
      · simp only [show (e.1 == k) = false by simp [hek], Bool.false_or]
        by_cases hr : rest.any (fun x => x.1 == k && (objGet p0 x.1).truthy)
        · rw [if_pos hr, if_pos hr]
        · rw [if_neg hr, if_neg hr, objGet_objSet,
            if_neg (fun h => hek h.symm)]
    · rw [if_neg ht, ih]
      simp only [show (objGet p0 e.1).truthy = false by simpa using ht,
        Bool.and_false, Bool.false_or]

/-- The per-entry truthiness test of the projection loop collapses to a
`objGet`-level test (all entries sharing a key read the same
`projection[key]`). -/
theorem projAny_eq (p : Doc) (k : String) :
    p.any (fun e => e.1 == k && (objGet p e.1).truthy)
      = (objHasKey p k && (objGet p k).truthy) := by
  by_cases hk : objHasKey p k
  · simp only [hk, Bool.true_and]
    by_cases ht : (objGet p k).truthy
    · simp only [ht]
      rcases List.any_eq_true.mp hk with ⟨e, he, hek⟩
      rw [List.any_eq_true]
      refine ⟨e, he, ?_⟩
      simp only [beq_iff_eq] at hek
      simp [hek, ht]
    · simp only [show (objGet p k).truthy = false by simpa using ht]
      rw [List.any_eq_false]
      intro e he
      by_cases hek : e.1 = k
      · simp [hek, show (objGet p k).truthy = false by simpa using ht]
      · simp [hek]
  · simp only [show objHasKey p k = false by simpa using hk, Bool.false_and]
    rw [List.any_eq_false]
    intro e he
    by_cases hek : e.1 = k
    · exfalso
      apply hk
      rw [show objHasKey p k = p.any (fun e => e.1 == k) from rfl, List.any_eq_true]
      exact ⟨e, he, by simp [hek]⟩
    · simp [hek]

/-- C10: every row returned by `find(filter, projection)` with a non-null
projection is the projection of a matching stored document: it always
carries `_id` (with the document's `_id` value) whether or not the
projection mentions it, carries exactly the keys the projection maps to
truthy values (with the document's values there, direct member reads), and
omits keys mapped to falsy values. -/
theorem c10_find_projection (regexTest : Value → Value → String → Option Bool)
    (registry : List Model) (db : DB) (m : Model)
    (filter p : Doc) (out : List Doc)
    (hrun : execFind regexTest registry db m filter (some p) {} = some out) :
    ∀ r ∈ out, ∃ d, d ∈ scanAll db m ∧
      matchesFilter regexTest d filter = some true ∧
      r = applyProjection d (some p) ∧
      objHasKey r "_id" = true ∧ objGet r "_id" = objGet d "_id" ∧
      ∀ k, k ≠ "_id" →
        objHasKey r k = (objHasKey p k && (objGet p k).truthy) ∧
        ((objGet p k).truthy = true → objGet r k = objGet d k) := by
  have hstep : execFind regexTest registry db m filter (some p) {} =
      (filterMatches regexTest filter (scanAll db m)).map
        (fun rows => rows.map (fun d => applyProjection d (some p))) := by
    unfold execFind
    rcases h : filterMatches regexTest filter (scanAll db m) with _ | rows <;>
      simp [h, execList_default]
  rw [hstep] at hrun
  rcases hfm : filterMatches regexTest filter (scanAll db m) with _ | rows
  · rw [hfm] at hrun; cases hrun
  · rw [hfm] at hrun
    have hout : out = rows.map (fun d => applyProjection d (some p)) := by
      simpa using hrun.symm
    subst hout
    intro r hr
    rcases List.mem_map.mp hr with ⟨d, hd, hrd⟩
    have hmem := filterMatches_mem regexTest filter (scanAll db m) rows hfm d hd
    refine ⟨d, hmem.1, hmem.2, hrd.symm, ?_, ?_, ?_⟩
    · rw [← hrd]
      show objHasKey (p.foldl _ [("_id", objGet d "_id")]) "_id" = true
      rw [projFold_hasKey]
      simp [objHasKey_cons]
    · rw [← hrd]
      show objGet (p.foldl _ [("_id", objGet d "_id")]) "_id" = objGet d "_id"
      rw [projFold_get]
      split
      · rfl
      · simp [objGet_cons]
    · intro k hk
      constructor
      · rw [← hrd]
        show objHasKey (p.foldl _ [("_id", objGet d "_id")]) k = _
        rw [projFold_hasKey, projAny_eq]
        simp [objHasKey_cons, objHasKey_nil, Ne.symm hk]
      · intro ht
        rw [← hrd]
        show objGet (p.foldl _ [("_id", objGet d "_id")]) k = objGet d k
        rw [projFold_get, projAny_eq]
        have hpk : objHasKey p k = true := by
          by_contra hc
          rw [objGet_eq_undef_of_not_hasKey p k (by simpa using hc)] at ht
          simp [Value.truthy] at ht
        simp [hpk, ht]

/-- Witness for `c10_find_projection` at a concrete store and projection. -/
theorem c10_witness :
    execFind noRegex [] ⟨[[("_id", Value.str "i1"), ("model", Value.str "M"),
        ("a", Value.num 1), ("b", Value.num 2)]], 0, 0⟩ ⟨"M", [], []⟩
      [] (some [("a", Value.num 1), ("b", Value.num 0)]) {} =
      some [[("_id", Value.str "i1"), ("a", Value.num 1)]] ∧
    ∀ r ∈ [([("_id", Value.str "i1"), ("a", Value.num 1)] : Doc)],
      ∃ d, d ∈ scanAll ⟨[[("_id", Value.str "i1"), ("model", Value.str "M"),
          ("a", Value.num 1), ("b", Value.num 2)]], 0, 0⟩ ⟨"M", [], []⟩ ∧
        matchesFilter noRegex d [] = some true ∧
        r = applyProjection d (some [("a", Value.num 1), ("b", Value.num 0)]) ∧
        objHasKey r "_id" = true ∧ objGet r "_id" = objGet d "_id" ∧
        ∀ k, k ≠ "_id" →
          objHasKey r k = (objHasKey [("a", Value.num 1), ("b", Value.num 0)] k
              && (objGet [("a", Value.num 1), ("b", Value.num 0)] k).truthy) ∧
          ((objGet [("a", Value.num 1), ("b", Value.num 0)] k).truthy = true →
            objGet r k = objGet d k) :=
  ⟨rfl, c10_find_projection noRegex [] _ _ [] [("a", Value.num 1), ("b", Value.num 0)] _ rfl⟩

/-- Witness for `c8_unsupported_shape_never_matches` at a concrete input. -/
theorem c8_witness :
    (("a", Value.obj [("$lt", Value.num 5)]) ∈
      ([("a", Value.obj [("$lt", Value.num 5)])] : Doc)) ∧
    unsupportedOpShape (.obj [("$lt", Value.num 5)]) = true ∧
    (evalFilterEntry noRegex [("a", Value.num 3)]
        ("a", .obj [("$lt", Value.num 5)]) = some false ∧
      matchesFilter noRegex [("a", Value.num 3)]
        [("a", .obj [("$lt", Value.num 5)])] ≠ some true ∧
      ((∀ e ∈ ([("a", Value.obj [("$lt", Value.num 5)])] : Doc),
          evalFilterEntry noRegex [("a", Value.num 3)] e ≠ none) →
        matchesFilter noRegex [("a", Value.num 3)]
          [("a", .obj [("$lt", Value.num 5)])] = some false)) :=
  ⟨by simp, rfl,
    c8_unsupported_shape_never_matches noRegex [("a", Value.num 3)]
      [("a", .obj [("$lt", Value.num 5)])] "a" (.obj [("$lt", Value.num 5)])
      (by simp) rfl⟩

end Yearbook
